import Mathlib

/-!
# Lock manager (`src/main.cpp`)

A shallow embedding of the lock table of `src/main.cpp` and of its two
operations `lock` and `unlock`.

* `lock_table` (`unordered_map<string, list<lock_record*>*>`) is a finite map
  from resource names to queues; it is embedded as a function
  `String → Option (List lock_record)`, where `none` is "the key is absent".
* `std::list` iterators are embedded as positions (indices) in the queue.
* `uint32_t` transaction ids are natural numbers (no arithmetic is done on them).
* `lock` returns `false` only when `new` throws `bad_alloc`; memory exhaustion
  is not part of the embedding, so the embedded `lock` always returns `true`.
* The three `for` loops assign `record = *lr_iter` in their increment, also when
  `lr_iter` has reached `end()`; the loop condition tests `lr_iter != end()` first, so
  that value of `record` is never used. The embedding gives this read no effect.
-/

namespace LockManager

/-- The enum `lockType` (lines 66-70). -/
inductive lockType where
  | SHARED
  | EXCLUSIVE
  deriving DecidableEq, Repr

/-- The enum `lockStatus` (lines 72-76). -/
inductive lockStatus where
  | GRANTED
  | WAITING
  deriving DecidableEq, Repr

open lockType lockStatus

/-- The class `lock_record` (lines 31-64). -/
structure lock_record where
  txn_id_ : Nat
  lock_type_ : lockType
  lock_status_ : lockStatus
  deriving DecidableEq, Repr

/-- The method `lock_record::setLockStatus` (lines 54-58). -/
def lock_record.setLockStatus (record : lock_record) (st : lockStatus) : lock_record :=
  { record with lock_status_ := st }

/-- The global `lock_table` (line 89): resource name to queue of lock records. -/
abbrev LockTable := String → Option (List lock_record)

/-- The lock table at program start: no resource has a queue. -/
def lock_table_init : LockTable := fun _ => none

/-- The assignment `lock_table[resource_name] = lst`, and the effect on the table of
mutating in place the list stored under `resource_name`. -/
def LockTable.set (lock_table : LockTable) (resource_name : String)
    (lst : List lock_record) : LockTable :=
  fun name => if name = resource_name then some lst else lock_table name

/-- The search loop of `unlock` (lines 285-290), started at a position whose remaining
records are the list argument, with loop counter `i` and flag `all_shared`. It returns
`none` when the iterator reaches `end()`, else the position of the first record of
transaction `txn_id` with the value of `all_shared` there. -/
def unlock_search (txn_id : Nat) : List lock_record → Nat → Bool → Option (Nat × Bool)
  | [], _, _ => none
  | record :: rest, i, all_shared =>
    if txn_id ≠ record.txn_id_ then
      unlock_search txn_id rest (i + 1)
        (if all_shared then decide (record.lock_type_ = SHARED) else all_shared)
    else some (i, all_shared)

/-- The granting loop of `unlock` (lines 324-328), started at a position whose remaining
records are the argument: grants records while they are SHARED and WAITING. -/
def unlock_grant_loop : List lock_record → List lock_record
  | [] => []
  | record :: rest =>
    if record.lock_type_ = SHARED ∧ record.lock_status_ = WAITING then
      record.setLockStatus GRANTED :: unlock_grant_loop rest
    else record :: rest

/-- The status updates of `unlock` (lines 313-330) on queue `q`, where `del_iter` is at
position `i` and `lr_iter` at position `i + 1`. -/
def unlock_update (q : List lock_record) (i : Nat) (all_shared : Bool) : List lock_record :=
  match q.drop (i + 1) with
  | [] => q
  | record :: rest =>
    if all_shared then
      if record.lock_type_ = EXCLUSIVE then
        if i + 1 = 1 then q.take (i + 1) ++ record.setLockStatus GRANTED :: rest
        else q
      else q.take (i + 1) ++ unlock_grant_loop (record :: rest)
    else q

/-- The function `unlock` (lines 267-334), from the table before the call to the returned
boolean and the table after the call. -/
def unlock (lock_table : LockTable) (resource_name : String) (txn_id : Nat) :
    Bool × LockTable :=
  match lock_table resource_name with
  | none => (false, lock_table)
  | some q =>
    if q.length = 0 then (false, lock_table)
    else
      match unlock_search txn_id q 0 true with
      | none => (false, lock_table)
      | some (i, all_shared) =>
        (true, lock_table.set resource_name ((unlock_update q i all_shared).eraseIdx i))

/-- The first loop of `lock` (lines 212-220): does `txn_id` have a record in the queue. -/
def lock_txn_prereq (txn_id : Nat) : List lock_record → Bool
  | [] => false
  | record :: rest => if record.txn_id_ = txn_id then true else lock_txn_prereq txn_id rest

/-- The second loop of `lock` (lines 235-240) with the test of line 243: the iterator
advances over SHARED and GRANTED records; the result says whether it reached `end()`. -/
def lock_scan : List lock_record → Bool
  | [] => true
  | record :: rest =>
    if record.lock_type_ = SHARED ∧ record.lock_status_ = GRANTED then lock_scan rest
    else false

/-- The value of `lock_status` at line 250 for a request on the non-empty queue `q`. -/
def lock_decision (q : List lock_record) (lock_type : lockType) : lockStatus :=
  if lock_type = SHARED then
    if lock_scan q then GRANTED else WAITING
  else WAITING

/-- The first branch of `lock` (lines 196-204): a fresh one-record queue. -/
def lock_first (lock_table : LockTable) (resource_name : String) (txn_id : Nat)
    (lock_type : lockType) : Bool × LockTable :=
  (true, lock_table.set resource_name [⟨txn_id, lock_type, GRANTED⟩])

/-- The function `lock` (lines 181-265), from the table before the call to the returned
boolean and the table after the call. -/
def lock (lock_table : LockTable) (resource_name : String) (txn_id : Nat)
    (lock_type : lockType) : Bool × LockTable :=
  match lock_table resource_name with
  | none => lock_first lock_table resource_name txn_id lock_type
  | some q =>
    if q.length = 0 then lock_first lock_table resource_name txn_id lock_type
    else
      let txn_prereq := lock_txn_prereq txn_id q
      let lock_status := lock_decision q lock_type
      let appended := lock_table.set resource_name (q ++ [⟨txn_id, lock_type, lock_status⟩])
      if txn_prereq then (true, (unlock appended resource_name txn_id).2)
      else (true, appended)

/-- A call made on the lock table. -/
inductive Call where
  | lock (resource_name : String) (txn_id : Nat) (lock_type : lockType)
  | unlock (resource_name : String) (txn_id : Nat)

/-- The table after one call. -/
def Call.apply (lock_table : LockTable) : Call → LockTable
  | Call.lock r t m => (LockManager.lock lock_table r t m).2
  | Call.unlock r t => (LockManager.unlock lock_table r t).2

/-- The table reached from the empty table by a finite sequence of calls. -/
def run (calls : List Call) : LockTable :=
  calls.foldl Call.apply lock_table_init

/-! ## Definitions used in the proofs -/

/-- Test used by the flag `all_shared`: the record is SHARED. -/
def isShared (record : lock_record) : Bool := decide (record.lock_type_ = SHARED)

/-- Closed form of what `unlock` leaves behind the removed record: `pre` are the records
before the removed one and `post` the records after it (see `unlock_eq`). -/
def cascade (pre post : List lock_record) : List lock_record :=
  match post with
  | [] => []
  | record :: rest =>
    if pre.all isShared then
      if record.lock_type_ = EXCLUSIVE then
        if pre = [] then record.setLockStatus GRANTED :: rest else record :: rest
      else unlock_grant_loop (record :: rest)
    else record :: rest

/-- Every record of the list is WAITING. -/
def AllWaiting (l : List lock_record) : Prop := ∀ x ∈ l, x.lock_status_ = WAITING

/-- Shape of the records behind a granted SHARED head: granted SHARED records, then
nothing, or a waiting EXCLUSIVE record followed by waiting records only. -/
def SharedTail : List lock_record → Prop
  | [] => True
  | x :: l =>
    if x.lock_type_ = SHARED ∧ x.lock_status_ = GRANTED then SharedTail l
    else x.lock_type_ = EXCLUSIVE ∧ x.lock_status_ = WAITING ∧ AllWaiting l

/-- Invariant of one queue: it is empty, or a granted EXCLUSIVE head followed by waiting
records only, or a granted SHARED head followed by a `SharedTail`. -/
def QueueInv : List lock_record → Prop
  | [] => True
  | x :: l =>
    x.lock_status_ = GRANTED ∧
      (if x.lock_type_ = EXCLUSIVE then AllWaiting l else SharedTail l)

/-- Invariant of the table: every queue satisfies `QueueInv`. -/
def TableInv (T : LockTable) : Prop := ∀ r q, T r = some q → QueueInv q

/-- The loop of `isTxnWaitingOnResource` (lines 171-175): is there a record of `txn_id`
whose status is WAITING. -/
def isTxnWaitingOnResource_loop (txn_id : Nat) : List lock_record → Bool
  | [] => false
  | record :: rest =>
    if record.txn_id_ = txn_id ∧ record.lock_status_ = WAITING then true
    else isTxnWaitingOnResource_loop txn_id rest

/-- The function `isTxnWaitingOnResource` (lines 163-179), from the table before the call
to the returned boolean and the table after the call. -/
def isTxnWaitingOnResource (lock_table : LockTable) (resource_name : String)
    (txn_id : Nat) : Bool × LockTable :=
  match lock_table resource_name with
  | none => (false, lock_table)
  | some q =>
    if q.length ≠ 0 then (isTxnWaitingOnResource_loop txn_id q, lock_table)
    else (false, lock_table)

/-- Relation between a record before a call and the record at the same place after it:
same transaction, same mode, and a GRANTED status stays GRANTED. -/
def StatusKept (old new : lock_record) : Prop :=
  new.txn_id_ = old.txn_id_ ∧ new.lock_type_ = old.lock_type_ ∧
    (old.lock_status_ = GRANTED → new.lock_status_ = GRANTED)

/-- No two records of the queue have the same transaction id. -/
def TxnNodup (q : List lock_record) : Prop := (q.map (fun x => x.txn_id_)).Nodup

/-- Every queue of the table satisfies `TxnNodup`. -/
def TableNodup (T : LockTable) : Prop := ∀ r q, T r = some q → TxnNodup q

/-- The admission decision in the words of the specification (section 4.2, step 2b):
WAITING for EXCLUSIVE; for SHARED, GRANTED iff every record of the queue is SHARED and
GRANTED. -/
def spec_decision (q : List lock_record) (mode : lockType) : lockStatus :=
  if mode = EXCLUSIVE then WAITING
  else if q.all (fun x => decide (x.lock_type_ = SHARED ∧ x.lock_status_ = GRANTED))
    then GRANTED else WAITING

/-- Re-lock in the words of the specification (section 4.2, steps 2c-2d, and section 9):
a new tail record decided against the stale queue `q` is appended, and afterwards
`unlock` is run for the same transaction. -/
def spec_relock (T : LockTable) (r : String) (q : List lock_record) (t : Nat)
    (mode : lockType) : Bool × LockTable :=
  (true, (unlock (T.set r (q ++ [⟨t, mode, spec_decision q mode⟩])) r t).2)

/-! ## Closed form of `unlock` on one queue -/

theorem unlock_search_append (t : Nat) (pre rest : List lock_record)
    (h : ∀ x ∈ pre, x.txn_id_ ≠ t) (i : Nat) (b : Bool) :
    unlock_search t (pre ++ rest) i b
      = unlock_search t rest (i + pre.length) (b && pre.all isShared) := by
  induction pre generalizing i b with
  | nil => simp
  | cons p pre ih =>
    have hp : t ≠ p.txn_id_ := fun e => h p (List.mem_cons_self _ _) e.symm
    have hrest : ∀ x ∈ pre, x.txn_id_ ≠ t := fun x hx => h x (List.mem_cons_of_mem _ hx)
    simp only [List.cons_append, unlock_search, hp, ne_eq, not_false_eq_true, if_true,
      List.append_eq]
    rw [ih hrest]
    have e1 : i + 1 + pre.length = i + (p :: pre).length := by simp; omega
    rw [e1]
    congr 1
    cases b <;> simp [isShared]

theorem unlock_search_hit (t : Nat) (e : lock_record) (post : List lock_record)
    (he : e.txn_id_ = t) (i : Nat) (b : Bool) :
    unlock_search t (e :: post) i b = some (i, b) := by
  simp [unlock_search, he]

theorem unlock_search_none (t : Nat) (q : List lock_record) (i : Nat) (b : Bool) :
    unlock_search t q i b = none ↔ ∀ x ∈ q, x.txn_id_ ≠ t := by
  induction q generalizing i b with
  | nil => simp [unlock_search]
  | cons p q ih =>
    by_cases hp : t = p.txn_id_
    · simp [unlock_search, hp]
    · have hp2 : ¬ p.txn_id_ = t := fun e => hp e.symm
      simp [unlock_search, hp, hp2, ih]

/-- Every queue with a record of transaction `t` splits at the first such record. -/
theorem exists_first_split (t : Nat) (q : List lock_record)
    (h : ∃ x ∈ q, x.txn_id_ = t) :
    ∃ pre e post, q = pre ++ e :: post ∧ e.txn_id_ = t ∧ ∀ x ∈ pre, x.txn_id_ ≠ t := by
  induction q with
  | nil => simp at h
  | cons p q ih =>
    by_cases hp : p.txn_id_ = t
    · exact ⟨[], p, q, rfl, hp, by simp⟩
    · have h2 : ∃ x ∈ q, x.txn_id_ = t := by
        obtain ⟨x, hx, hxt⟩ := h
        rcases List.mem_cons.mp hx with rfl | hx
        · exact absurd hxt hp
        · exact ⟨x, hx, hxt⟩
      obtain ⟨pre, e, post, hq, he, hpre⟩ := ih h2
      refine ⟨p :: pre, e, post, by simp [hq], he, ?_⟩
      intro x hx
      rcases List.mem_cons.mp hx with rfl | hx
      · exact hp
      · exact hpre x hx

theorem unlock_update_erase (pre post : List lock_record) (e : lock_record) :
    (unlock_update (pre ++ e :: post) pre.length (pre.all isShared)).eraseIdx pre.length
      = pre ++ cascade pre post := by
  have hdrop : (pre ++ e :: post).drop (pre.length + 1) = post := by
    rw [List.drop_append_eq_append_drop]
    simp
  have htake : (pre ++ e :: post).take (pre.length + 1) = pre ++ [e] := by
    rw [List.take_append_eq_append_take]
    simp
  have herase : ∀ l : List lock_record, (pre ++ e :: l).eraseIdx pre.length = pre ++ l := by
    intro l
    rw [List.eraseIdx_append_of_length_le (Nat.le_refl _)]
    simp
  have hnil : pre.length + 1 = 1 ↔ pre = [] := by
    constructor
    · intro h
      exact List.length_eq_zero.mp (by omega)
    · intro h
      simp [h]
  unfold unlock_update
  rw [hdrop, htake]
  cases post with
  | nil => simp [cascade, herase]
  | cons s rest =>
    simp only [cascade]
    by_cases hall : pre.all isShared = true
    · simp only [hall, if_true]
      by_cases hx : s.lock_type_ = EXCLUSIVE
      · simp only [hx, if_true]
        by_cases hpre : pre = []
        · subst hpre
          simp
        · have h1 : ¬ (pre.length + 1 = 1) := fun h => hpre (hnil.mp h)
          simp only [h1, hpre, if_false]
          exact herase _
      · simp only [hx, if_false]
        rw [List.append_assoc]
        exact herase _
    · simp only [hall, if_false]
      simp only [Bool.false_eq_true, if_false]
      exact herase _

/-- Closed form of a successful `unlock`: the first record of `t` is removed and the
records after it are updated by `cascade`. -/
theorem unlock_eq (T : LockTable) (r : String) (t : Nat) (pre post : List lock_record)
    (e : lock_record) (hq : T r = some (pre ++ e :: post)) (he : e.txn_id_ = t)
    (hpre : ∀ x ∈ pre, x.txn_id_ ≠ t) :
    unlock T r t = (true, T.set r (pre ++ cascade pre post)) := by
  unfold unlock
  rw [hq]
  have hlen : ¬ ((pre ++ e :: post).length = 0) := by simp
  simp only [hlen, if_false]
  rw [unlock_search_append t pre (e :: post) hpre, unlock_search_hit t e post he]
  simp only [Bool.true_and, Nat.zero_add]
  rw [unlock_update_erase]

/-- Closed form of a failing `unlock`: the queue has no record of `t`. -/
theorem unlock_eq_of_absent (T : LockTable) (r : String) (t : Nat) (q : List lock_record)
    (hq : T r = some q) (habs : ∀ x ∈ q, x.txn_id_ ≠ t) :
    unlock T r t = (false, T) := by
  unfold unlock
  rw [hq]
  by_cases hlen : q.length = 0
  · simp [hlen]
  · simp only [hlen, if_false]
    rw [(unlock_search_none t q 0 true).mpr habs]

theorem set_same (T : LockTable) (r : String) (q : List lock_record) :
    (T.set r q) r = some q := by
  simp [LockTable.set]

theorem set_other (T : LockTable) (r r2 : String) (q : List lock_record) (h : r2 ≠ r) :
    (T.set r q) r2 = T r2 := by
  simp [LockTable.set, h]

theorem set_set (T : LockTable) (r : String) (q q2 : List lock_record) :
    (T.set r q).set r q2 = T.set r q2 := by
  funext name
  by_cases h : name = r <;> simp [LockTable.set, h]

/-! ## The queue invariant is kept by `lock` and `unlock` -/

theorem allWaiting_nil : AllWaiting [] := by
  intro x hx
  simp at hx

theorem allWaiting_cons (x : lock_record) (l : List lock_record) :
    AllWaiting (x :: l) ↔ x.lock_status_ = WAITING ∧ AllWaiting l := by
  simp [AllWaiting]

theorem allWaiting_append (l1 l2 : List lock_record) :
    AllWaiting (l1 ++ l2) ↔ AllWaiting l1 ∧ AllWaiting l2 := by
  simp only [AllWaiting, List.mem_append]
  constructor
  · intro h
    exact ⟨fun x hx => h x (Or.inl hx), fun x hx => h x (Or.inr hx)⟩
  · rintro ⟨h1, h2⟩ x (hx | hx)
    · exact h1 x hx
    · exact h2 x hx

theorem sharedTail_grant_loop (l : List lock_record) (h : AllWaiting l) :
    SharedTail (unlock_grant_loop l) := by
  induction l with
  | nil => simp [unlock_grant_loop, SharedTail]
  | cons x l ih =>
    obtain ⟨hx, hl⟩ := (allWaiting_cons x l).mp h
    rcases x with ⟨t, m, st⟩
    simp only at hx
    subst hx
    cases m
    · simp [unlock_grant_loop, SharedTail, lock_record.setLockStatus, ih hl]
    · simp [unlock_grant_loop, SharedTail, hl]

theorem cascade_cons_shared (p : lock_record) (pre post : List lock_record)
    (hp : p.lock_type_ = SHARED) :
    cascade (p :: pre) post =
      match post with
      | [] => []
      | record :: rest =>
        if pre.all isShared then
          if record.lock_type_ = EXCLUSIVE then record :: rest
          else unlock_grant_loop (record :: rest)
        else record :: rest := by
  cases post with
  | nil => simp [cascade]
  | cons s rest => simp [cascade, isShared, hp]

theorem cascade_cons_exclusive (p : lock_record) (pre post : List lock_record)
    (hp : p.lock_type_ = EXCLUSIVE) : cascade (p :: pre) post = post := by
  cases post with
  | nil => simp [cascade]
  | cons s rest => simp [cascade, isShared, hp]

theorem sharedTail_of_allWaiting_cascade (p : lock_record) (post : List lock_record)
    (hp : p.lock_type_ = SHARED) (h : AllWaiting post) :
    SharedTail (cascade [p] post) := by
  rw [cascade_cons_shared p [] post hp]
  cases post with
  | nil => simp [SharedTail]
  | cons s rest =>
    simp only [List.all_nil, if_true]
    by_cases hs : s.lock_type_ = EXCLUSIVE
    · obtain ⟨h1, h2⟩ := (allWaiting_cons s rest).mp h
      simp [hs, SharedTail, h1, h2]
    · simp only [hs, if_false]
      exact sharedTail_grant_loop _ h

theorem sharedTail_cascade (p : lock_record) (pre post : List lock_record) (e : lock_record)
    (hp : p.lock_type_ = SHARED) (h : SharedTail (pre ++ e :: post)) :
    SharedTail (pre ++ cascade (p :: pre) post) := by
  induction pre with
  | nil =>
    simp only [List.nil_append] at h ⊢
    simp only [SharedTail] at h
    by_cases he : e.lock_type_ = SHARED ∧ e.lock_status_ = GRANTED
    · rw [if_pos he] at h
      rw [cascade_cons_shared p [] post hp]
      cases post with
      | nil => simp [SharedTail]
      | cons s rest =>
        simp only [List.all_nil, if_true]
        by_cases hs : s.lock_type_ = EXCLUSIVE
        · simpa [hs] using h
        · simp only [hs, if_false]
          have hs2 : s.lock_type_ = SHARED ∧ s.lock_status_ = GRANTED := by
            by_contra hc
            simp only [SharedTail, hc, if_false] at h
            exact hs h.1
          have hw : ¬ (s.lock_type_ = SHARED ∧ s.lock_status_ = WAITING) := by
            rintro ⟨_, hw⟩
            rw [hs2.2] at hw
            cases hw
          simpa [unlock_grant_loop, hw] using h
    · rw [if_neg he] at h
      exact sharedTail_of_allWaiting_cascade p post hp h.2.2
  | cons x pre ih =>
    simp only [List.cons_append, SharedTail] at h ⊢
    by_cases hx : x.lock_type_ = SHARED ∧ x.lock_status_ = GRANTED
    · rw [if_pos hx] at h
      rw [if_pos hx]
      have hc : cascade (p :: x :: pre) post = cascade (p :: pre) post := by
        rw [cascade_cons_shared p (x :: pre) post hp, cascade_cons_shared p pre post hp]
        simp [isShared, hx.1]
      rw [hc]
      exact ih h
    · rw [if_neg hx] at h
      rw [if_neg hx]
      have hxx : x.lock_type_ = EXCLUSIVE := h.1
      have hc : cascade (p :: x :: pre) post = post := by
        rw [cascade_cons_shared p (x :: pre) post hp]
        cases post with
        | nil => rfl
        | cons s rest => simp [isShared, hxx]
      rw [hc]
      refine ⟨h.1, h.2.1, ?_⟩
      have h3 := (allWaiting_append pre (e :: post)).mp h.2.2
      exact (allWaiting_append pre post).mpr ⟨h3.1, ((allWaiting_cons e post).mp h3.2).2⟩

/-- `QueueInv` is kept by the queue update of a successful `unlock`. -/
theorem queueInv_cascade (pre post : List lock_record) (e : lock_record)
    (h : QueueInv (pre ++ e :: post)) : QueueInv (pre ++ cascade pre post) := by
  cases pre with
  | nil =>
    simp only [List.nil_append, QueueInv] at h ⊢
    obtain ⟨heg, h2⟩ := h
    cases post with
    | nil => simp [cascade, QueueInv]
    | cons s rest =>
      by_cases he : e.lock_type_ = EXCLUSIVE
      · rw [if_pos he] at h2
        obtain ⟨hs, hrest⟩ := (allWaiting_cons s rest).mp h2
        by_cases hsx : s.lock_type_ = EXCLUSIVE
        · simp [cascade, hsx, QueueInv, lock_record.setLockStatus, hrest]
        · have hss : s.lock_type_ = SHARED := by
            cases hm : s.lock_type_ with
            | SHARED => rfl
            | EXCLUSIVE => exact absurd hm hsx
          have hst := sharedTail_grant_loop rest hrest
          simp [cascade, hsx, unlock_grant_loop, hss, hs, QueueInv,
            lock_record.setLockStatus, hst]
      · rw [if_neg he] at h2
        simp only [SharedTail] at h2
        by_cases hsg : s.lock_type_ = SHARED ∧ s.lock_status_ = GRANTED
        · rw [if_pos hsg] at h2
          have hsx : ¬ s.lock_type_ = EXCLUSIVE := by
            rw [hsg.1]
            intro hc
            cases hc
          simp [cascade, hsx, unlock_grant_loop, hsg.1, hsg.2, QueueInv, h2]
        · rw [if_neg hsg] at h2
          simp [cascade, h2.1, QueueInv, lock_record.setLockStatus, h2.2.2]
  | cons p pre =>
    simp only [List.cons_append, QueueInv] at h ⊢
    obtain ⟨hpg, h2⟩ := h
    refine ⟨hpg, ?_⟩
    by_cases hp : p.lock_type_ = EXCLUSIVE
    · rw [if_pos hp] at h2
      rw [if_pos hp, cascade_cons_exclusive p pre post hp]
      have h3 := (allWaiting_append pre (e :: post)).mp h2
      exact (allWaiting_append pre post).mpr ⟨h3.1, ((allWaiting_cons e post).mp h3.2).2⟩
    · rw [if_neg hp] at h2
      rw [if_neg hp]
      have hps : p.lock_type_ = SHARED := by
        cases hm : p.lock_type_ with
        | SHARED => rfl
        | EXCLUSIVE => exact absurd hm hp
      exact sharedTail_cascade p pre post e hps h2

theorem sharedTail_append (l : List lock_record) (t : Nat) (m : lockType)
    (h : SharedTail l) : SharedTail (l ++ [⟨t, m, lock_decision l m⟩]) := by
  induction l with
  | nil =>
    cases m <;> simp [SharedTail, lock_decision, lock_scan, allWaiting_nil]
  | cons x l ih =>
    simp only [List.cons_append, SharedTail] at h ⊢
    by_cases hx : x.lock_type_ = SHARED ∧ x.lock_status_ = GRANTED
    · rw [if_pos hx] at h
      rw [if_pos hx]
      have hd : lock_decision (x :: l) m = lock_decision l m := by
        simp [lock_decision, lock_scan, hx]
      rw [hd]
      exact ih h
    · rw [if_neg hx] at h
      rw [if_neg hx]
      have hd : lock_decision (x :: l) m = WAITING := by
        cases m <;> simp [lock_decision, lock_scan, hx]
      rw [hd]
      refine ⟨h.1, h.2.1, ?_⟩
      apply (allWaiting_append l _).mpr
      refine ⟨h.2.2, ?_⟩
      intro y hy
      simp only [List.mem_singleton] at hy
      rw [hy]

/-- `QueueInv` is kept when `lock` appends its new record to a non-empty queue. -/
theorem queueInv_append (q : List lock_record) (t : Nat) (m : lockType)
    (hne : q ≠ []) (h : QueueInv q) : QueueInv (q ++ [⟨t, m, lock_decision q m⟩]) := by
  cases q with
  | nil => exact absurd rfl hne
  | cons x l =>
    simp only [List.cons_append, QueueInv] at h ⊢
    obtain ⟨hxg, h2⟩ := h
    refine ⟨hxg, ?_⟩
    by_cases hx : x.lock_type_ = EXCLUSIVE
    · rw [if_pos hx] at h2
      rw [if_pos hx]
      have hd : lock_decision (x :: l) m = WAITING := by
        cases m <;> simp [lock_decision, lock_scan, hx]
      rw [hd]
      apply (allWaiting_append l _).mpr
      refine ⟨h2, ?_⟩
      intro y hy
      simp only [List.mem_singleton] at hy
      rw [hy]
    · rw [if_neg hx] at h2
      rw [if_neg hx]
      have hps : x.lock_type_ = SHARED := by
        cases hm : x.lock_type_ with
        | SHARED => rfl
        | EXCLUSIVE => exact absurd hm hx
      have hd : lock_decision (x :: l) m = lock_decision l m := by
        simp [lock_decision, lock_scan, hps, hxg]
      rw [hd]
      exact sharedTail_append l t m h2

theorem tableInv_set (T : LockTable) (r : String) (q : List lock_record)
    (hT : TableInv T) (hq : QueueInv q) : TableInv (T.set r q) := by
  intro r2 q2 h2
  by_cases hr : r2 = r
  · subst hr
    rw [set_same] at h2
    cases h2
    exact hq
  · rw [set_other T r r2 q hr] at h2
    exact hT r2 q2 h2

theorem tableInv_unlock (T : LockTable) (r : String) (t : Nat) (hT : TableInv T) :
    TableInv (unlock T r t).2 := by
  cases hq : T r with
  | none => simpa [unlock, hq] using hT
  | some q =>
    by_cases hex : ∃ x ∈ q, x.txn_id_ = t
    · obtain ⟨pre, e, post, hsplit, he, hpre⟩ := exists_first_split t q hex
      subst hsplit
      rw [unlock_eq T r t pre post e hq he hpre]
      exact tableInv_set T r _ hT (queueInv_cascade pre post e (hT r _ hq))
    · have habs : ∀ x ∈ q, x.txn_id_ ≠ t := fun x hx hxt => hex ⟨x, hx, hxt⟩
      rw [unlock_eq_of_absent T r t q hq habs]
      exact hT

theorem tableInv_lock (T : LockTable) (r : String) (t : Nat) (m : lockType)
    (hT : TableInv T) : TableInv (lock T r t m).2 := by
  have hfirst : TableInv (lock_first T r t m).2 := by
    apply tableInv_set T r _ hT
    cases m <;> simp [QueueInv, SharedTail, allWaiting_nil]
  cases hq : T r with
  | none => simpa [lock, hq] using hfirst
  | some q =>
    by_cases hlen : q.length = 0
    · simpa [lock, hq, hlen] using hfirst
    · have happ : TableInv (T.set r (q ++ [⟨t, m, lock_decision q m⟩])) :=
        tableInv_set T r _ hT
          (queueInv_append q t m (fun h => hlen (by simp [h])) (hT r q hq))
      simp only [lock, hq, hlen, if_false]
      by_cases hpr : lock_txn_prereq t q = true
      · simp only [hpr, if_true]
        exact tableInv_unlock _ r t happ
      · simp only [hpr]
        exact happ

theorem tableInv_init : TableInv lock_table_init := by
  intro r q h
  simp [lock_table_init] at h

theorem tableInv_foldl (calls : List Call) (T : LockTable) (hT : TableInv T) :
    TableInv (calls.foldl Call.apply T) := by
  induction calls generalizing T with
  | nil => exact hT
  | cons c calls ih =>
    apply ih
    cases c with
    | lock r t m => exact tableInv_lock T r t m hT
    | unlock r t => exact tableInv_unlock T r t hT

/-- Every table reached from the empty table satisfies the invariant. -/
theorem tableInv_run (calls : List Call) : TableInv (run calls) :=
  tableInv_foldl calls lock_table_init tableInv_init

/-! ## Consequences of the invariant and facts on the loops of `lock` -/

theorem sharedTail_not_exclusive_granted (l : List lock_record) (h : SharedTail l) :
    ∀ x ∈ l, ¬ (x.lock_type_ = EXCLUSIVE ∧ x.lock_status_ = GRANTED) := by
  induction l with
  | nil => simp
  | cons y l ih =>
    intro x hx hxg
    simp only [SharedTail] at h
    by_cases hy : y.lock_type_ = SHARED ∧ y.lock_status_ = GRANTED
    · rw [if_pos hy] at h
      rcases List.mem_cons.mp hx with rfl | hx
      · rw [hy.1] at hxg
        cases hxg.1
      · exact ih h x hx hxg
    · rw [if_neg hy] at h
      have hw : x.lock_status_ = WAITING := by
        rcases List.mem_cons.mp hx with rfl | hx
        · exact h.2.1
        · exact h.2.2 x hx
      rw [hw] at hxg
      cases hxg.2

/-- In a queue satisfying `QueueInv`, a granted EXCLUSIVE record is at position 0. -/
theorem queueInv_exclusive_granted_head (q : List lock_record) (h : QueueInv q) (i : Nat)
    (hi : i < q.length)
    (hx : q[i].lock_type_ = EXCLUSIVE ∧ q[i].lock_status_ = GRANTED) : i = 0 := by
  cases q with
  | nil => simp at hi
  | cons y l =>
    cases i with
    | zero => rfl
    | succ k =>
      exfalso
      simp only [List.getElem_cons_succ] at hx
      have hk : k < l.length := by simpa using hi
      have hmem : l[k] ∈ l := List.getElem_mem hk
      simp only [QueueInv] at h
      by_cases hy : y.lock_type_ = EXCLUSIVE
      · rw [if_pos hy] at h
        have hw := h.2 _ hmem
        rw [hw] at hx
        cases hx.2
      · rw [if_neg hy] at h
        exact sharedTail_not_exclusive_granted l h.2 _ hmem hx

/-- In a queue satisfying `QueueInv` whose head is EXCLUSIVE, only the head is granted. -/
theorem queueInv_exclusive_head_alone (q : List lock_record) (h : QueueInv q)
    (h0 : 0 < q.length) (hx : q[0].lock_type_ = EXCLUSIVE) (j : Nat) (hj : j < q.length)
    (hg : q[j].lock_status_ = GRANTED) : j = 0 := by
  cases q with
  | nil => simp at hj
  | cons y l =>
    cases j with
    | zero => rfl
    | succ k =>
      exfalso
      simp only [List.getElem_cons_succ] at hg
      simp only [List.getElem_cons_zero] at hx
      have hk : k < l.length := by simpa using hj
      have hmem : l[k] ∈ l := List.getElem_mem hk
      simp only [QueueInv] at h
      rw [if_pos hx] at h
      have hw := h.2 _ hmem
      rw [hw] at hg
      cases hg

theorem lock_txn_prereq_iff (t : Nat) (q : List lock_record) :
    lock_txn_prereq t q = true ↔ ∃ x ∈ q, x.txn_id_ = t := by
  induction q with
  | nil => simp [lock_txn_prereq]
  | cons y l ih =>
    by_cases hy : y.txn_id_ = t
    · simp [lock_txn_prereq, hy]
    · simp [lock_txn_prereq, hy, ih]

theorem lock_scan_iff (q : List lock_record) :
    lock_scan q = true ↔ ∀ x ∈ q, x.lock_type_ = SHARED ∧ x.lock_status_ = GRANTED := by
  induction q with
  | nil => simp [lock_scan]
  | cons y l ih =>
    by_cases hy : y.lock_type_ = SHARED ∧ y.lock_status_ = GRANTED
    · simp [lock_scan, hy, ih]
    · simp only [lock_scan, hy, if_false, List.mem_cons, forall_eq_or_imp, false_and]
      simp

/-- A call of `lock` by a transaction with no record in the non-empty queue appends. -/
theorem lock_eq_of_absent (T : LockTable) (r : String) (q : List lock_record) (t : Nat)
    (m : lockType) (hq : T r = some q) (hne : q ≠ []) (habs : ∀ x ∈ q, x.txn_id_ ≠ t) :
    lock T r t m = (true, T.set r (q ++ [⟨t, m, lock_decision q m⟩])) := by
  have hlen : ¬ q.length = 0 := fun h => hne (List.length_eq_zero.mp h)
  have hpr : ¬ lock_txn_prereq t q = true := by
    rw [lock_txn_prereq_iff]
    rintro ⟨x, hx, hxt⟩
    exact habs x hx hxt
  simp only [lock, hq, hlen, if_false, hpr]
  simp

/-- A call of `lock` by a transaction whose first record in the queue is `e`: the new
record is appended, then the old one is removed by `unlock`. -/
theorem lock_eq_of_present (T : LockTable) (r : String) (pre post : List lock_record)
    (e : lock_record) (t : Nat) (m : lockType) (hq : T r = some (pre ++ e :: post))
    (he : e.txn_id_ = t) (hpre : ∀ x ∈ pre, x.txn_id_ ≠ t) :
    lock T r t m = (true, T.set r (pre ++
      cascade pre (post ++ [⟨t, m, lock_decision (pre ++ e :: post) m⟩]))) := by
  have hlen : ¬ (pre ++ e :: post).length = 0 := by simp
  have hpr : lock_txn_prereq t (pre ++ e :: post) = true := by
    rw [lock_txn_prereq_iff]
    exact ⟨e, by simp, he⟩
  simp only [lock, hq, hlen, if_false, hpr, if_true]
  have happ : (T.set r (pre ++ e :: post ++ [⟨t, m, lock_decision (pre ++ e :: post) m⟩])) r
      = some (pre ++ e :: (post ++ [⟨t, m, lock_decision (pre ++ e :: post) m⟩])) := by
    rw [set_same]
    simp
  rw [unlock_eq _ r t pre _ e happ he hpre, set_set]

theorem unlock_grant_loop_append_exclusive (l : List lock_record) (n : lock_record)
    (hn : n.lock_type_ = EXCLUSIVE) :
    ∃ l2, unlock_grant_loop (l ++ [n]) = l2 ++ [n] := by
  induction l with
  | nil =>
    refine ⟨[], ?_⟩
    simp [unlock_grant_loop, hn]
  | cons y l ih =>
    by_cases hy : y.lock_type_ = SHARED ∧ y.lock_status_ = WAITING
    · obtain ⟨l2, hl2⟩ := ih
      refine ⟨y.setLockStatus GRANTED :: l2, ?_⟩
      simp [unlock_grant_loop, hy, hl2]
    · refine ⟨y :: l, ?_⟩
      simp only [List.cons_append, unlock_grant_loop, hy, if_false, List.append_eq]

/-- The last record left by `cascade` when the last record behind the removed one is
EXCLUSIVE: it is granted exactly when it is alone behind a removed head. -/
theorem cascade_append_exclusive (pre post : List lock_record) (n : lock_record)
    (hn : n.lock_type_ = EXCLUSIVE) :
    ∃ l2, cascade pre (post ++ [n])
      = l2 ++ [if pre = [] ∧ post = [] then n.setLockStatus GRANTED else n] := by
  cases post with
  | nil =>
    refine ⟨[], ?_⟩
    by_cases hall : pre.all isShared = true
    · by_cases hp : pre = []
      · simp [cascade, hn, hp]
      · simp [cascade, hall, hn, hp]
    · have hp : pre ≠ [] := by
        rintro rfl
        simp at hall
      simp [cascade, hall, hp]
  | cons s rest =>
    simp only [List.cons_append, cascade, reduceCtorEq, and_false, if_false]
    by_cases hall : pre.all isShared = true
    · simp only [hall, if_true]
      by_cases hs : s.lock_type_ = EXCLUSIVE
      · simp only [hs, if_true]
        by_cases hp : pre = []
        · exact ⟨s.setLockStatus GRANTED :: rest, by simp [hp]⟩
        · exact ⟨s :: rest, by simp [hp]⟩
      · simp only [hs, if_false]
        have h := unlock_grant_loop_append_exclusive (s :: rest) n hn
        simpa using h
    · simp only [hall]
      exact ⟨s :: rest, by simp⟩

/-- The update of `unlock` changes nothing when the successor is SHARED and GRANTED. -/
theorem cascade_granted_shared (pre rest : List lock_record) (s : lock_record)
    (hs : s.lock_type_ = SHARED ∧ s.lock_status_ = GRANTED) :
    cascade pre (s :: rest) = s :: rest := by
  have h1 : ¬ s.lock_type_ = EXCLUSIVE := by
    rw [hs.1]
    intro hc
    cases hc
  have h2 : ¬ (s.lock_type_ = SHARED ∧ s.lock_status_ = WAITING) := by
    rintro ⟨_, hw⟩
    rw [hs.2] at hw
    cases hw
  by_cases hall : pre.all isShared = true
  · simp [cascade, hall, h1, unlock_grant_loop, h2]
  · simp [cascade, hall]

/-- The granting loop on a run of waiting SHARED records that ends at the end of the
queue or at a record that is EXCLUSIVE or GRANTED. -/
theorem unlock_grant_loop_run (run rest : List lock_record)
    (hrun : ∀ x ∈ run, x.lock_type_ = SHARED ∧ x.lock_status_ = WAITING)
    (hmax : ∀ x, rest.head? = some x → x.lock_type_ = EXCLUSIVE ∨ x.lock_status_ = GRANTED) :
    unlock_grant_loop (run ++ rest)
      = run.map (fun x => x.setLockStatus GRANTED) ++ rest := by
  induction run with
  | nil =>
    cases rest with
    | nil => simp [unlock_grant_loop]
    | cons y rest =>
      have hy := hmax y rfl
      have hn : ¬ (y.lock_type_ = SHARED ∧ y.lock_status_ = WAITING) := by
        rintro ⟨h1, h2⟩
        rcases hy with hy | hy
        · rw [h1] at hy
          cases hy
        · rw [h2] at hy
          cases hy
      simp [unlock_grant_loop, hn]
  | cons y run ih =>
    have hy := hrun y (List.mem_cons_self _ _)
    have ih2 := ih (fun x hx => hrun x (List.mem_cons_of_mem _ hx))
    simp [unlock_grant_loop, hy, ih2]

/-! ## The claims -/

/-- C1 (mutual exclusion). In every table reached from the empty table by a finite
sequence of `lock` and `unlock` calls, if the record at position `i` of a queue is
EXCLUSIVE and GRANTED and the record at position `j` of the same queue is GRANTED,
then `i = j`: no other record of the queue is granted. -/
theorem mutual_exclusion (calls : List Call) (r : String) (q : List lock_record)
    (hq : run calls r = some q) (i j : Nat) (hi : i < q.length) (hj : j < q.length)
    (hx : q[i].lock_type_ = EXCLUSIVE ∧ q[i].lock_status_ = GRANTED)
    (hg : q[j].lock_status_ = GRANTED) : i = j := by
  have hinv : QueueInv q := tableInv_run calls r q hq
  have hi0 : i = 0 := queueInv_exclusive_granted_head q hinv i hi hx
  subst hi0
  exact (queueInv_exclusive_head_alone q hinv hi hx.1 j hj hg).symm

theorem mutual_exclusion_witness :
    run [Call.lock "X" 1 EXCLUSIVE, Call.lock "X" 2 SHARED] "X"
        = some [⟨1, EXCLUSIVE, GRANTED⟩, ⟨2, SHARED, WAITING⟩] ∧ (0 : Nat) = 0 :=
  ⟨by decide,
    mutual_exclusion [Call.lock "X" 1 EXCLUSIVE, Call.lock "X" 2 SHARED] "X"
      [⟨1, EXCLUSIVE, GRANTED⟩, ⟨2, SHARED, WAITING⟩] (by decide) 0 0 (by decide) (by decide)
      (by decide) (by decide)⟩

/-- C2 (P1, first lock always granted). For every table, every resource `r` with no
queue or an empty queue, every transaction `t` and mode `m`, `lock r t m` returns true
and afterwards the queue of `r` is exactly the single record `(t, m, GRANTED)`. -/
theorem first_lock_granted (T : LockTable) (r : String) (t : Nat) (m : lockType)
    (h : T r = none ∨ T r = some []) :
    (lock T r t m).1 = true ∧ (lock T r t m).2 r = some [⟨t, m, GRANTED⟩] := by
  rcases h with h | h
  · simp [lock, h, lock_first, set_same]
  · simp [lock, h, lock_first, set_same]

theorem first_lock_granted_witness :
    (lock (lock_table_init.set "Y" []) "Y" 5 EXCLUSIVE).1 = true ∧
      (lock (lock_table_init.set "Y" []) "Y" 5 EXCLUSIVE).2 "Y"
        = some [⟨5, EXCLUSIVE, GRANTED⟩] :=
  first_lock_granted (lock_table_init.set "Y" []) "Y" 5 EXCLUSIVE (Or.inr (by decide))

/-- C3 (admission of a new transaction). When the queue `q` of `r` is non-empty and has
no record of transaction `t`, `lock r t m` returns true and leaves as queue of `r` the
queue `q` followed by one record `(t, m, s)`, where `s` is GRANTED if and only if `m` is
SHARED and every record of `q` is SHARED and GRANTED, and `s` is WAITING otherwise. -/
theorem lock_new_transaction (T : LockTable) (r : String) (q : List lock_record) (t : Nat)
    (m : lockType) (hq : T r = some q) (hne : q ≠ []) (hnew : ∀ x ∈ q, x.txn_id_ ≠ t) :
    ∃ s : lockStatus,
      (lock T r t m).1 = true ∧ (lock T r t m).2 r = some (q ++ [⟨t, m, s⟩]) ∧
      (s = GRANTED ↔
        (m = SHARED ∧ ∀ x ∈ q, x.lock_type_ = SHARED ∧ x.lock_status_ = GRANTED)) ∧
      (s ≠ GRANTED → s = WAITING) := by
  refine ⟨lock_decision q m, ?_, ?_, ?_, ?_⟩
  · rw [lock_eq_of_absent T r q t m hq hne hnew]
  · rw [lock_eq_of_absent T r q t m hq hne hnew]
    exact set_same _ _ _
  · rw [← lock_scan_iff]
    cases m with
    | SHARED =>
      by_cases hs : lock_scan q = true
      · simp [lock_decision, hs]
      · simp [lock_decision, hs]
    | EXCLUSIVE => simp [lock_decision]
  · intro hs
    cases hd : lock_decision q m with
    | GRANTED => exact absurd hd hs
    | WAITING => rfl

theorem lock_new_transaction_witness :
    ∃ s : lockStatus,
      (lock (run [Call.lock "X" 1 SHARED, Call.lock "X" 2 SHARED]) "X" 3 EXCLUSIVE).1 = true ∧
      (lock (run [Call.lock "X" 1 SHARED, Call.lock "X" 2 SHARED]) "X" 3 EXCLUSIVE).2 "X"
        = some ([⟨1, SHARED, GRANTED⟩, ⟨2, SHARED, GRANTED⟩] ++ [⟨3, EXCLUSIVE, s⟩]) ∧
      (s = GRANTED ↔ (EXCLUSIVE = SHARED ∧
        ∀ x ∈ [(⟨1, SHARED, GRANTED⟩ : lock_record), ⟨2, SHARED, GRANTED⟩],
          x.lock_type_ = SHARED ∧ x.lock_status_ = GRANTED)) ∧
      (s ≠ GRANTED → s = WAITING) :=
  lock_new_transaction (run [Call.lock "X" 1 SHARED, Call.lock "X" 2 SHARED]) "X"
    [⟨1, SHARED, GRANTED⟩, ⟨2, SHARED, GRANTED⟩] 3 EXCLUSIVE (by decide) (by decide)
    (by decide)

/-- C4, as stated, fails. In the table reached by `lock("X", 1, SHARED)` the queue of
"X" is the single record `(1, SHARED, GRANTED)`, hence non-empty; after
`lock("X", 1, EXCLUSIVE)` the queue of "X" is the single record `(1, EXCLUSIVE, GRANTED)`:
the request added for transaction 1 is the last record and it is not WAITING. -/
theorem exclusive_relock_of_sole_holder_is_granted :
    run [Call.lock "X" 1 SHARED] "X" = some [⟨1, SHARED, GRANTED⟩] ∧
    (lock (run [Call.lock "X" 1 SHARED]) "X" 1 EXCLUSIVE).2 "X"
      = some [⟨1, EXCLUSIVE, GRANTED⟩] ∧
    ¬ (∃ q2 last, (lock (run [Call.lock "X" 1 SHARED]) "X" 1 EXCLUSIVE).2 "X" = some q2 ∧
        q2.getLast? = some last ∧ last.lock_status_ = WAITING) := by
  refine ⟨by decide, by decide, ?_⟩
  rintro ⟨q2, last, h1, h2, h3⟩
  have h : (lock (run [Call.lock "X" 1 SHARED]) "X" 1 EXCLUSIVE).2 "X"
      = some [⟨1, EXCLUSIVE, GRANTED⟩] := by decide
  rw [h] at h1
  cases h1
  simp at h2
  subst h2
  cases h3

/-- C4 amended (P2, exclusive part). When the queue `q` of `r` is non-empty, after
`lock r t EXCLUSIVE` the last record of the queue of `r` is the request added for `t`,
with mode EXCLUSIVE; its status is WAITING, except when `q` consisted of exactly one
record and that record belonged to `t`, in which case its status is GRANTED. -/
theorem exclusive_lock_status (T : LockTable) (r : String) (q : List lock_record) (t : Nat)
    (hq : T r = some q) (hne : q ≠ []) :
    ∃ q2 s, (lock T r t EXCLUSIVE).1 = true ∧ (lock T r t EXCLUSIVE).2 r = some q2 ∧
      q2.getLast? = some ⟨t, EXCLUSIVE, s⟩ ∧
      ((∃ e, q = [e] ∧ e.txn_id_ = t) → s = GRANTED) ∧
      (¬ (∃ e, q = [e] ∧ e.txn_id_ = t) → s = WAITING) := by
  by_cases hex : ∃ x ∈ q, x.txn_id_ = t
  · obtain ⟨pre, e, post, hsplit, he, hpre⟩ := exists_first_split t q hex
    subst hsplit
    have hd : lock_decision (pre ++ e :: post) EXCLUSIVE = WAITING := by
      simp [lock_decision]
    obtain ⟨l2, hl2⟩ := cascade_append_exclusive pre post ⟨t, EXCLUSIVE, WAITING⟩ rfl
    have hlock := lock_eq_of_present T r pre post e t EXCLUSIVE hq he hpre
    rw [hd, hl2] at hlock
    by_cases hsole : pre = [] ∧ post = []
    · refine ⟨_, GRANTED, by rw [hlock], by rw [hlock]; exact set_same _ _ _, ?_, ?_, ?_⟩
      · simp [hsole, lock_record.setLockStatus]
      · intro _
        rfl
      · intro hn
        exact absurd ⟨e, by simp [hsole.1, hsole.2], he⟩ hn
    · refine ⟨_, WAITING, by rw [hlock], by rw [hlock]; exact set_same _ _ _, ?_, ?_, ?_⟩
      · rw [if_neg hsole]
        simp
      · rintro ⟨e2, he2, _⟩
        exfalso
        apply hsole
        cases pre with
        | nil =>
          simp only [List.nil_append, List.cons.injEq] at he2
          exact ⟨rfl, he2.2⟩
        | cons p pre =>
          simp only [List.cons_append, List.cons.injEq] at he2
          have := he2.2
          simp at this
      · intro _
        rfl
  · have habs : ∀ x ∈ q, x.txn_id_ ≠ t := fun x hx hxt => hex ⟨x, hx, hxt⟩
    have hlock := lock_eq_of_absent T r q t EXCLUSIVE hq hne habs
    have hd : lock_decision q EXCLUSIVE = WAITING := by
      simp [lock_decision]
    rw [hd] at hlock
    refine ⟨_, WAITING, by rw [hlock], by rw [hlock]; exact set_same _ _ _, ?_, ?_, ?_⟩
    · simp
    · rintro ⟨e, he, het⟩
      exfalso
      apply hex
      exact ⟨e, by simp [he], het⟩
    · intro _
      rfl

theorem exclusive_lock_status_witness :
    ∃ q2 s,
      (lock (run [Call.lock "X" 1 SHARED, Call.lock "X" 2 SHARED]) "X" 1 EXCLUSIVE).1 = true ∧
      (lock (run [Call.lock "X" 1 SHARED, Call.lock "X" 2 SHARED]) "X" 1 EXCLUSIVE).2 "X"
        = some q2 ∧
      q2.getLast? = some ⟨1, EXCLUSIVE, s⟩ ∧
      ((∃ e, [(⟨1, SHARED, GRANTED⟩ : lock_record), ⟨2, SHARED, GRANTED⟩] = [e]
          ∧ e.txn_id_ = 1) → s = GRANTED) ∧
      (¬ (∃ e, [(⟨1, SHARED, GRANTED⟩ : lock_record), ⟨2, SHARED, GRANTED⟩] = [e]
          ∧ e.txn_id_ = 1) → s = WAITING) :=
  exclusive_lock_status (run [Call.lock "X" 1 SHARED, Call.lock "X" 2 SHARED]) "X"
    [⟨1, SHARED, GRANTED⟩, ⟨2, SHARED, GRANTED⟩] 1 (by decide) (by decide)

/-- C5 (P2, shared part). When the queue `q` of `r` is non-empty and all its records are
SHARED and GRANTED, for every transaction `t` (also one that has a record in `q`),
`lock r t SHARED` returns true, and afterwards the last record of the queue of `r` is
`(t, SHARED, GRANTED)` and every record of that queue is SHARED and GRANTED. -/
theorem shared_lock_granted (T : LockTable) (r : String) (q : List lock_record) (t : Nat)
    (hq : T r = some q) (hne : q ≠ [])
    (hall : ∀ x ∈ q, x.lock_type_ = SHARED ∧ x.lock_status_ = GRANTED) :
    ∃ q2, (lock T r t SHARED).1 = true ∧ (lock T r t SHARED).2 r = some q2 ∧
      q2.getLast? = some ⟨t, SHARED, GRANTED⟩ ∧
      ∀ x ∈ q2, x.lock_type_ = SHARED ∧ x.lock_status_ = GRANTED := by
  have hd : lock_decision q SHARED = GRANTED := by
    simp [lock_decision, (lock_scan_iff q).mpr hall]
  by_cases hex : ∃ x ∈ q, x.txn_id_ = t
  · obtain ⟨pre, e, post, hsplit, he, hpre⟩ := exists_first_split t q hex
    subst hsplit
    have hlock := lock_eq_of_present T r pre post e t SHARED hq he hpre
    rw [hd] at hlock
    have hc : cascade pre (post ++ [⟨t, SHARED, GRANTED⟩]) = post ++ [⟨t, SHARED, GRANTED⟩] := by
      cases post with
      | nil => exact cascade_granted_shared pre [] _ ⟨rfl, rfl⟩
      | cons s rest =>
        exact cascade_granted_shared pre _ s (hall s (by simp))
    rw [hc] at hlock
    refine ⟨pre ++ (post ++ [⟨t, SHARED, GRANTED⟩]), by rw [hlock],
      by rw [hlock]; exact set_same _ _ _, ?_, ?_⟩
    · rw [← List.append_assoc]
      simp
    · intro x hx
      simp only [List.mem_append, List.mem_singleton] at hx
      rcases hx with hx | hx | hx
      · exact hall x (by simp [hx])
      · exact hall x (by simp [hx])
      · rw [hx]
        exact ⟨rfl, rfl⟩
  · have habs : ∀ x ∈ q, x.txn_id_ ≠ t := fun x hx hxt => hex ⟨x, hx, hxt⟩
    have hlock := lock_eq_of_absent T r q t SHARED hq hne habs
    rw [hd] at hlock
    refine ⟨q ++ [⟨t, SHARED, GRANTED⟩], by rw [hlock],
      by rw [hlock]; exact set_same _ _ _, ?_, ?_⟩
    · simp
    · intro x hx
      simp only [List.mem_append, List.mem_singleton] at hx
      rcases hx with hx | hx
      · exact hall x hx
      · rw [hx]
        exact ⟨rfl, rfl⟩

theorem shared_lock_granted_witness :
    ∃ q2,
      (lock (run [Call.lock "X" 1 SHARED, Call.lock "X" 2 SHARED]) "X" 1 SHARED).1 = true ∧
      (lock (run [Call.lock "X" 1 SHARED, Call.lock "X" 2 SHARED]) "X" 1 SHARED).2 "X"
        = some q2 ∧
      q2.getLast? = some ⟨1, SHARED, GRANTED⟩ ∧
      ∀ x ∈ q2, x.lock_type_ = SHARED ∧ x.lock_status_ = GRANTED :=
  shared_lock_granted (run [Call.lock "X" 1 SHARED, Call.lock "X" 2 SHARED]) "X"
    [⟨1, SHARED, GRANTED⟩, ⟨2, SHARED, GRANTED⟩] 1 (by decide) (by decide) (by decide)

/-- C6 (P3, FIFO fairness for exclusive). In every table reached from the empty table by
a finite sequence of `lock` and `unlock` calls, every record that is EXCLUSIVE and
GRANTED is at position 0 of its queue: no call leaves a granted EXCLUSIVE record behind
another record. -/
theorem exclusive_granted_is_head (calls : List Call) (r : String) (q : List lock_record)
    (hq : run calls r = some q) (i : Nat) (hi : i < q.length)
    (hx : q[i].lock_type_ = EXCLUSIVE ∧ q[i].lock_status_ = GRANTED) : i = 0 :=
  queueInv_exclusive_granted_head q (tableInv_run calls r q hq) i hi hx

theorem exclusive_granted_is_head_witness :
    run [Call.lock "X" 1 SHARED, Call.lock "X" 2 EXCLUSIVE, Call.unlock "X" 1] "X"
        = some [⟨2, EXCLUSIVE, GRANTED⟩] ∧ (0 : Nat) = 0 :=
  ⟨by decide,
    exclusive_granted_is_head
      [Call.lock "X" 1 SHARED, Call.lock "X" 2 EXCLUSIVE, Call.unlock "X" 1] "X"
      [⟨2, EXCLUSIVE, GRANTED⟩] (by decide) 0 (by decide) (by decide)⟩

/-- C7 (P4, cascade grants the contiguous shared run). When the queue of `r` is
`pre ++ e :: (run ++ rest)`, where `e` is the first record of transaction `t`, every
record of `pre` is SHARED, `run` is a non-empty run of records that are SHARED and
WAITING, and `rest` is empty or starts with a record that is EXCLUSIVE or GRANTED,
`unlock r t` returns true and leaves as queue of `r` the old queue with `e` removed,
the records of `run` set to GRANTED and every other record unchanged. -/
theorem unlock_grants_shared_run (T : LockTable) (r : String) (t : Nat)
    (pre run rest : List lock_record) (e : lock_record)
    (hq : T r = some (pre ++ e :: (run ++ rest))) (he : e.txn_id_ = t)
    (hpre : ∀ x ∈ pre, x.txn_id_ ≠ t ∧ x.lock_type_ = SHARED) (hne : run ≠ [])
    (hrun : ∀ x ∈ run, x.lock_type_ = SHARED ∧ x.lock_status_ = WAITING)
    (hmax : ∀ x, rest.head? = some x → x.lock_type_ = EXCLUSIVE ∨ x.lock_status_ = GRANTED) :
    (unlock T r t).1 = true ∧
      (unlock T r t).2 r
        = some (pre ++ (run.map (fun x => x.setLockStatus GRANTED) ++ rest)) := by
  rw [unlock_eq T r t pre (run ++ rest) e hq he (fun x hx => (hpre x hx).1)]
  refine ⟨rfl, ?_⟩
  show (T.set r (pre ++ cascade pre (run ++ rest))) r = _
  rw [set_same]
  have hall : pre.all isShared = true := by
    rw [List.all_eq_true]
    intro x hx
    simp [isShared, (hpre x hx).2]
  have hc : cascade pre (run ++ rest) = unlock_grant_loop (run ++ rest) := by
    cases run with
    | nil => exact absurd rfl hne
    | cons y run =>
      have hy := hrun y (List.mem_cons_self _ _)
      have hyx : ¬ y.lock_type_ = EXCLUSIVE := by
        rw [hy.1]
        intro hc
        cases hc
      simp only [List.cons_append, cascade, hall, if_true, hyx, if_false]
  rw [hc, unlock_grant_loop_run run rest hrun hmax]

theorem unlock_grants_shared_run_witness :
    (unlock (lock_table_init.set "R" [⟨1, EXCLUSIVE, GRANTED⟩, ⟨2, SHARED, WAITING⟩,
        ⟨3, SHARED, WAITING⟩, ⟨4, EXCLUSIVE, WAITING⟩]) "R" 1).1 = true ∧
      (unlock (lock_table_init.set "R" [⟨1, EXCLUSIVE, GRANTED⟩, ⟨2, SHARED, WAITING⟩,
        ⟨3, SHARED, WAITING⟩, ⟨4, EXCLUSIVE, WAITING⟩]) "R" 1).2 "R"
        = some ([] ++ ([(⟨2, SHARED, WAITING⟩ : lock_record), ⟨3, SHARED, WAITING⟩].map
            (fun x => x.setLockStatus GRANTED) ++ [⟨4, EXCLUSIVE, WAITING⟩])) :=
  unlock_grants_shared_run
    (lock_table_init.set "R" [⟨1, EXCLUSIVE, GRANTED⟩, ⟨2, SHARED, WAITING⟩,
      ⟨3, SHARED, WAITING⟩, ⟨4, EXCLUSIVE, WAITING⟩]) "R" 1 []
    [⟨2, SHARED, WAITING⟩, ⟨3, SHARED, WAITING⟩] [⟨4, EXCLUSIVE, WAITING⟩]
    ⟨1, EXCLUSIVE, GRANTED⟩ (by decide) (by decide) (by decide) (by decide) (by decide)
    (by decide)

/-- C8 (an EXCLUSIVE successor is granted exactly when it becomes the head). When the
queue of `r` is `pre ++ e :: s :: post`, where `e` is the first record of transaction `t`
(at position `k = pre.length`) and its successor `s` is EXCLUSIVE, `unlock r t` returns
true and leaves the queue `pre ++ s2 :: post`, where `s2` is `s` with status GRANTED if
`k = 0` and `s` unchanged if `k > 0`. -/
theorem unlock_exclusive_successor (T : LockTable) (r : String) (t : Nat)
    (pre post : List lock_record) (e s : lock_record)
    (hq : T r = some (pre ++ e :: s :: post)) (he : e.txn_id_ = t)
    (hpre : ∀ x ∈ pre, x.txn_id_ ≠ t) (hs : s.lock_type_ = EXCLUSIVE) :
    (unlock T r t).1 = true ∧
      (unlock T r t).2 r
        = some (pre ++ (if pre.length = 0 then s.setLockStatus GRANTED else s) :: post) := by
  rw [unlock_eq T r t pre (s :: post) e hq he hpre]
  refine ⟨rfl, ?_⟩
  show (T.set r (pre ++ cascade pre (s :: post))) r = _
  rw [set_same]
  by_cases hp : pre = []
  · subst hp
    simp [cascade, hs]
  · have hl : ¬ pre.length = 0 := fun h => hp (List.length_eq_zero.mp h)
    by_cases hall : pre.all isShared = true
    · simp [cascade, hall, hs, hp]
    · simp [cascade, hall, hp]

theorem unlock_exclusive_successor_witness :
    (unlock (run [Call.lock "X" 1 SHARED, Call.lock "X" 2 SHARED,
        Call.lock "X" 3 EXCLUSIVE]) "X" 1).2 "X"
      = some [⟨2, SHARED, GRANTED⟩, ⟨3, EXCLUSIVE, WAITING⟩] ∧
    (unlock (run [Call.lock "X" 1 SHARED, Call.lock "X" 2 SHARED,
        Call.lock "X" 3 EXCLUSIVE, Call.unlock "X" 1]) "X" 2).1 = true ∧
    (unlock (run [Call.lock "X" 1 SHARED, Call.lock "X" 2 SHARED,
        Call.lock "X" 3 EXCLUSIVE, Call.unlock "X" 1]) "X" 2).2 "X"
      = some ([] ++ (if ([] : List lock_record).length = 0
          then (⟨3, EXCLUSIVE, WAITING⟩ : lock_record).setLockStatus GRANTED
          else ⟨3, EXCLUSIVE, WAITING⟩) :: []) :=
  ⟨by decide,
    unlock_exclusive_successor
      (run [Call.lock "X" 1 SHARED, Call.lock "X" 2 SHARED, Call.lock "X" 3 EXCLUSIVE,
        Call.unlock "X" 1]) "X" 2 [] [] ⟨2, SHARED, GRANTED⟩ ⟨3, EXCLUSIVE, WAITING⟩
      (by decide) (by decide) (by decide) (by decide)⟩

/-- C9 (unlock succeeds exactly when a matching record exists). For every table,
resource `r` and transaction `t`, `unlock r t` returns true if and only if `r` has a
queue with at least one record of transaction `t`, whatever the status of that record;
it returns false when `r` has no queue, an empty queue, or no record of `t`. -/
theorem unlock_true_iff (T : LockTable) (r : String) (t : Nat) :
    (unlock T r t).1 = true ↔ ∃ q, T r = some q ∧ ∃ x ∈ q, x.txn_id_ = t := by
  cases hq : T r with
  | none => simp [unlock, hq]
  | some q =>
    by_cases hex : ∃ x ∈ q, x.txn_id_ = t
    · obtain ⟨pre, e, post, hsplit, he, hpre⟩ := exists_first_split t q hex
      subst hsplit
      rw [unlock_eq T r t pre post e hq he hpre]
      simp only [true_iff]
      exact ⟨_, rfl, hex⟩
    · have habs : ∀ x ∈ q, x.txn_id_ ≠ t := fun x hx hxt => hex ⟨x, hx, hxt⟩
      rw [unlock_eq_of_absent T r t q hq habs]
      simp only [Bool.false_eq_true, false_iff]
      rintro ⟨q2, h2, hex2⟩
      cases h2
      exact hex hex2

/-- C10 (P6, failure atomicity of `unlock`). For every table, resource `r` and
transaction `t`, whenever `unlock r t` returns false the table after the call is the
table before the call: no queue is created, no record removed, no status changed. -/
theorem unlock_failure_keeps_table (T : LockTable) (r : String) (t : Nat)
    (h : (unlock T r t).1 = false) : (unlock T r t).2 = T := by
  cases hq : T r with
  | none => simp [unlock, hq]
  | some q =>
    by_cases hex : ∃ x ∈ q, x.txn_id_ = t
    · obtain ⟨pre, e, post, hsplit, he, hpre⟩ := exists_first_split t q hex
      subst hsplit
      rw [unlock_eq T r t pre post e hq he hpre] at h
      cases h
    · have habs : ∀ x ∈ q, x.txn_id_ ≠ t := fun x hx hxt => hex ⟨x, hx, hxt⟩
      rw [unlock_eq_of_absent T r t q hq habs]

theorem unlock_failure_keeps_table_witness :
    (unlock (run [Call.lock "X" 1 SHARED]) "X" 2).1 = false ∧
      (unlock (run [Call.lock "X" 1 SHARED]) "X" 2).2 = run [Call.lock "X" 1 SHARED] :=
  ⟨by decide, unlock_failure_keeps_table (run [Call.lock "X" 1 SHARED]) "X" 2 (by decide)⟩

/-! ## Further consequences of the invariant -/

theorem isTxnWaitingOnResource_loop_iff (t : Nat) (q : List lock_record) :
    isTxnWaitingOnResource_loop t q = true
      ↔ ∃ x ∈ q, x.txn_id_ = t ∧ x.lock_status_ = WAITING := by
  induction q with
  | nil => simp [isTxnWaitingOnResource_loop]
  | cons y l ih =>
    by_cases hy : y.txn_id_ = t ∧ y.lock_status_ = WAITING
    · simp [isTxnWaitingOnResource_loop, hy]
    · simp only [isTxnWaitingOnResource_loop, hy, if_false, ih, List.mem_cons]
      constructor
      · rintro ⟨x, hx, hxt⟩
        exact ⟨x, Or.inr hx, hxt⟩
      · rintro ⟨x, hx | hx, hxt⟩
        · subst hx
          exact absurd hxt hy
        · exact ⟨x, hx, hxt⟩

theorem sharedTail_no_gap (l : List lock_record) (h : SharedTail l) (i j : Nat)
    (hij : i < j) (hi : i < l.length) (hj : j < l.length)
    (hg : l[j].lock_status_ = GRANTED) : l[i].lock_status_ = GRANTED := by
  induction l generalizing i j with
  | nil => simp at hj
  | cons y l ih =>
    simp only [SharedTail] at h
    cases j with
    | zero => omega
    | succ j2 =>
      simp only [List.getElem_cons_succ] at hg
      have hj2 : j2 < l.length := by simpa using hj
      by_cases hy : y.lock_type_ = SHARED ∧ y.lock_status_ = GRANTED
      · rw [if_pos hy] at h
        cases i with
        | zero => simpa using hy.2
        | succ i2 =>
          simp only [List.getElem_cons_succ]
          exact ih h i2 j2 (by omega) (by simpa using hi) hj2 hg
      · rw [if_neg hy] at h
        have hw := h.2.2 _ (List.getElem_mem hj2)
        rw [hw] at hg
        cases hg

/-- In a queue satisfying `QueueInv`, every record before a granted record is granted. -/
theorem queueInv_no_gap (q : List lock_record) (h : QueueInv q) (i j : Nat)
    (hij : i < j) (hi : i < q.length) (hj : j < q.length)
    (hg : q[j].lock_status_ = GRANTED) : q[i].lock_status_ = GRANTED := by
  cases q with
  | nil => simp at hj
  | cons y l =>
    simp only [QueueInv] at h
    cases j with
    | zero => omega
    | succ j2 =>
      simp only [List.getElem_cons_succ] at hg
      have hj2 : j2 < l.length := by simpa using hj
      cases i with
      | zero => simpa using h.1
      | succ i2 =>
        simp only [List.getElem_cons_succ]
        by_cases hy : y.lock_type_ = EXCLUSIVE
        · have h2 := h.2
          rw [if_pos hy] at h2
          have hw := h2 _ (List.getElem_mem hj2)
          rw [hw] at hg
          cases hg
        · have h2 := h.2
          rw [if_neg hy] at h2
          exact sharedTail_no_gap l h2 i2 j2 (by omega) (by simpa using hi) hj2 hg

theorem sharedTail_shared_waiting (l : List lock_record) (h : SharedTail l) (j : Nat)
    (hj : j < l.length)
    (hsw : l[j].lock_type_ = SHARED ∧ l[j].lock_status_ = WAITING) :
    ∃ i, ∃ hi : i < l.length, i < j ∧ l[i].lock_type_ = EXCLUSIVE := by
  induction l generalizing j with
  | nil => simp at hj
  | cons y l ih =>
    simp only [SharedTail] at h
    by_cases hy : y.lock_type_ = SHARED ∧ y.lock_status_ = GRANTED
    · rw [if_pos hy] at h
      cases j with
      | zero =>
        simp only [List.getElem_cons_zero] at hsw
        rw [hy.2] at hsw
        cases hsw.2
      | succ j2 =>
        simp only [List.getElem_cons_succ] at hsw
        obtain ⟨i, hi, hij, hx⟩ := ih h j2 (by simpa using hj) hsw
        exact ⟨i + 1, by simpa using hi, by omega, by simpa using hx⟩
    · rw [if_neg hy] at h
      cases j with
      | zero =>
        simp only [List.getElem_cons_zero] at hsw
        rw [h.1] at hsw
        cases hsw.1
      | succ j2 => exact ⟨0, by simp, by omega, by simpa using h.1⟩

/-- In a queue satisfying `QueueInv`, a waiting SHARED record is behind an EXCLUSIVE one. -/
theorem queueInv_shared_waiting (q : List lock_record) (h : QueueInv q) (j : Nat)
    (hj : j < q.length)
    (hsw : q[j].lock_type_ = SHARED ∧ q[j].lock_status_ = WAITING) :
    ∃ i, ∃ hi : i < q.length, i < j ∧ q[i].lock_type_ = EXCLUSIVE := by
  cases q with
  | nil => simp at hj
  | cons y l =>
    simp only [QueueInv] at h
    cases j with
    | zero =>
      simp only [List.getElem_cons_zero] at hsw
      rw [h.1] at hsw
      cases hsw.2
    | succ j2 =>
      by_cases hy : y.lock_type_ = EXCLUSIVE
      · exact ⟨0, by simp, by omega, by simpa using hy⟩
      · have h2 := h.2
        rw [if_neg hy] at h2
        simp only [List.getElem_cons_succ] at hsw
        obtain ⟨i, hi, hij, hx⟩ :=
          sharedTail_shared_waiting l h2 j2 (by simpa using hj) hsw
        exact ⟨i + 1, by simpa using hi, by omega, by simpa using hx⟩

/-! ## The claims, continued -/

/-- C11 (`is_waiting` is an exact query without side effect). For every table, resource
`r` and transaction `t`, `isTxnWaitingOnResource r t` returns true if and only if `r` has
a queue with some record of transaction `t` and status WAITING (so it returns false when
`r` has no queue or an empty queue), and the table after the call is the table before. -/
theorem isTxnWaitingOnResource_exact (T : LockTable) (r : String) (t : Nat) :
    ((isTxnWaitingOnResource T r t).1 = true
      ↔ ∃ q, T r = some q ∧ ∃ x ∈ q, x.txn_id_ = t ∧ x.lock_status_ = WAITING) ∧
    (isTxnWaitingOnResource T r t).2 = T := by
  cases hq : T r with
  | none => simp [isTxnWaitingOnResource, hq]
  | some q =>
    by_cases hlen : q.length = 0
    · have hnil : q = [] := List.length_eq_zero.mp hlen
      simp [isTxnWaitingOnResource, hq, hnil]
    · constructor
      · simp only [isTxnWaitingOnResource, hq, ne_eq, hlen, not_false_eq_true, if_true,
          isTxnWaitingOnResource_loop_iff]
        constructor
        · intro h
          exact ⟨q, rfl, h⟩
        · rintro ⟨q2, h2, h⟩
          cases h2
          exact h
      · simp [isTxnWaitingOnResource, hq, hlen]

/-- C12 (no-gap invariant). In every table reached from the empty table by a finite
sequence of `lock` and `unlock` calls, in every queue each record that precedes a GRANTED
record is GRANTED: the queue is a block of GRANTED records followed by a block of WAITING
records. -/
theorem granted_records_form_prefix (calls : List Call) (r : String) (q : List lock_record)
    (hq : run calls r = some q) (i j : Nat) (hij : i < j) (hi : i < q.length)
    (hj : j < q.length) (hg : q[j].lock_status_ = GRANTED) :
    q[i].lock_status_ = GRANTED :=
  queueInv_no_gap q (tableInv_run calls r q hq) i j hij hi hj hg

theorem granted_records_form_prefix_witness :
    run [Call.lock "X" 1 SHARED, Call.lock "X" 2 SHARED, Call.lock "X" 3 EXCLUSIVE] "X"
        = some [⟨1, SHARED, GRANTED⟩, ⟨2, SHARED, GRANTED⟩, ⟨3, EXCLUSIVE, WAITING⟩] ∧
      (⟨1, SHARED, GRANTED⟩ : lock_record).lock_status_ = GRANTED :=
  ⟨by decide,
    granted_records_form_prefix [Call.lock "X" 1 SHARED, Call.lock "X" 2 SHARED, Call.lock "X" 3 EXCLUSIVE] "X"
      [⟨1, SHARED, GRANTED⟩, ⟨2, SHARED, GRANTED⟩, ⟨3, EXCLUSIVE, WAITING⟩] (by decide) 0 1
      (by decide) (by decide) (by decide) (by decide)⟩

/-! ## What `unlock` keeps of the records behind the removed one -/

theorem statusKept_refl (x : lock_record) : StatusKept x x :=
  ⟨rfl, rfl, fun h => h⟩

theorem statusKept_setGranted (x : lock_record) :
    StatusKept x (x.setLockStatus GRANTED) :=
  ⟨rfl, rfl, fun _ => rfl⟩

theorem forall2_statusKept_refl (l : List lock_record) : List.Forall₂ StatusKept l l := by
  induction l with
  | nil => exact List.Forall₂.nil
  | cons x l ih => exact List.Forall₂.cons (statusKept_refl x) ih

theorem unlock_grant_loop_kept (l : List lock_record) :
    List.Forall₂ StatusKept l (unlock_grant_loop l) := by
  induction l with
  | nil => exact List.Forall₂.nil
  | cons x l ih =>
    by_cases hx : x.lock_type_ = SHARED ∧ x.lock_status_ = WAITING
    · simp only [unlock_grant_loop, hx, and_self, if_true]
      exact List.Forall₂.cons (statusKept_setGranted x) ih
    · simp only [unlock_grant_loop, hx, if_false]
      exact forall2_statusKept_refl _

theorem cascade_kept (pre post : List lock_record) :
    List.Forall₂ StatusKept post (cascade pre post) := by
  cases post with
  | nil => exact List.Forall₂.nil
  | cons s rest =>
    simp only [cascade]
    by_cases hall : pre.all isShared = true
    · simp only [hall, if_true]
      by_cases hs : s.lock_type_ = EXCLUSIVE
      · simp only [hs, if_true]
        by_cases hp : pre = []
        · simp only [hp, if_true]
          exact List.Forall₂.cons (statusKept_setGranted s) (forall2_statusKept_refl _)
        · simp only [hp, if_false]
          exact forall2_statusKept_refl _
      · simp only [hs, if_false]
        exact unlock_grant_loop_kept _
    · simp only [hall]
      exact forall2_statusKept_refl _

theorem forall2_statusKept_map_txn (a b : List lock_record)
    (h : List.Forall₂ StatusKept a b) :
    b.map (fun x => x.txn_id_) = a.map (fun x => x.txn_id_) := by
  induction h with
  | nil => rfl
  | cons hxy _ ih => simp [hxy.1, ih]

theorem cascade_map_txn (pre post : List lock_record) :
    (cascade pre post).map (fun x => x.txn_id_) = post.map (fun x => x.txn_id_) :=
  forall2_statusKept_map_txn post _ (cascade_kept pre post)

/-- The update of `unlock` changes nothing behind an EXCLUSIVE predecessor. -/
theorem cascade_of_exclusive_before (pre post : List lock_record)
    (h : ∃ x ∈ pre, x.lock_type_ = EXCLUSIVE) : cascade pre post = post := by
  have hall : ¬ pre.all isShared = true := by
    rw [List.all_eq_true]
    intro hc
    obtain ⟨x, hx, hxx⟩ := h
    have := hc x hx
    simp [isShared, hxx] at this
  cases post with
  | nil => rfl
  | cons s rest => simp [cascade, hall]

/-! ## Uniqueness of transaction ids -/

theorem txnNodup_cascade (pre post : List lock_record) (e : lock_record)
    (h : TxnNodup (pre ++ e :: post)) : TxnNodup (pre ++ cascade pre post) := by
  unfold TxnNodup at h ⊢
  rw [List.map_append, cascade_map_txn]
  rw [List.map_append, List.map_cons] at h
  exact h.sublist
    (List.Sublist.append (List.Sublist.refl _) (List.sublist_cons_self _ _))

theorem txnNodup_append_absent (q : List lock_record) (n : lock_record)
    (h : TxnNodup q) (habs : ∀ x ∈ q, x.txn_id_ ≠ n.txn_id_) : TxnNodup (q ++ [n]) := by
  unfold TxnNodup at h ⊢
  rw [List.map_append, List.map_singleton]
  have hp : (List.map (fun x => x.txn_id_) q ++ [n.txn_id_]).Perm
      (n.txn_id_ :: List.map (fun x => x.txn_id_) q) := List.perm_append_singleton _ _
  rw [hp.nodup_iff, List.nodup_cons]
  refine ⟨?_, h⟩
  intro hmem
  obtain ⟨x, hx, hxt⟩ := List.mem_map.mp hmem
  exact habs x hx hxt

theorem txnNodup_relock (pre post : List lock_record) (e n : lock_record)
    (hn : n.txn_id_ = e.txn_id_) (h : TxnNodup (pre ++ e :: post)) :
    TxnNodup (pre ++ cascade pre (post ++ [n])) := by
  unfold TxnNodup at h ⊢
  rw [List.map_append, cascade_map_txn, List.map_append, List.map_singleton, hn]
  rw [List.map_append, List.map_cons] at h
  have hp : (List.map (fun x => x.txn_id_) post ++ [e.txn_id_]).Perm
      (e.txn_id_ :: List.map (fun x => x.txn_id_) post) := List.perm_append_singleton _ _
  exact ((List.Perm.append_left _ hp).nodup_iff).mpr h

theorem tableNodup_set (T : LockTable) (r : String) (q : List lock_record)
    (hT : TableNodup T) (hq : TxnNodup q) : TableNodup (T.set r q) := by
  intro r2 q2 h2
  by_cases hr : r2 = r
  · subst hr
    rw [set_same] at h2
    cases h2
    exact hq
  · rw [set_other T r r2 q hr] at h2
    exact hT r2 q2 h2

theorem tableNodup_unlock (T : LockTable) (r : String) (t : Nat) (hT : TableNodup T) :
    TableNodup (unlock T r t).2 := by
  cases hq : T r with
  | none => simpa [unlock, hq] using hT
  | some q =>
    by_cases hex : ∃ x ∈ q, x.txn_id_ = t
    · obtain ⟨pre, e, post, hsplit, he, hpre⟩ := exists_first_split t q hex
      subst hsplit
      rw [unlock_eq T r t pre post e hq he hpre]
      exact tableNodup_set T r _ hT (txnNodup_cascade pre post e (hT r _ hq))
    · have habs : ∀ x ∈ q, x.txn_id_ ≠ t := fun x hx hxt => hex ⟨x, hx, hxt⟩
      rw [unlock_eq_of_absent T r t q hq habs]
      exact hT

theorem tableNodup_lock (T : LockTable) (r : String) (t : Nat) (m : lockType)
    (hT : TableNodup T) : TableNodup (lock T r t m).2 := by
  have hfirst : TableNodup (lock_first T r t m).2 := by
    apply tableNodup_set T r _ hT
    simp [TxnNodup]
  cases hq : T r with
  | none => simpa [lock, hq] using hfirst
  | some q =>
    by_cases hlen : q.length = 0
    · simpa [lock, hq, hlen] using hfirst
    · have hne : q ≠ [] := fun h => hlen (by simp [h])
      by_cases hex : ∃ x ∈ q, x.txn_id_ = t
      · obtain ⟨pre, e, post, hsplit, he, hpre⟩ := exists_first_split t q hex
        subst hsplit
        rw [lock_eq_of_present T r pre post e t m hq he hpre]
        exact tableNodup_set T r _ hT
          (txnNodup_relock pre post e _ he.symm (hT r _ hq))
      · have habs : ∀ x ∈ q, x.txn_id_ ≠ t := fun x hx hxt => hex ⟨x, hx, hxt⟩
        rw [lock_eq_of_absent T r q t m hq hne habs]
        exact tableNodup_set T r _ hT (txnNodup_append_absent q _ (hT r _ hq) habs)

theorem tableNodup_foldl (calls : List Call) (T : LockTable) (hT : TableNodup T) :
    TableNodup (calls.foldl Call.apply T) := by
  induction calls generalizing T with
  | nil => exact hT
  | cons c calls ih =>
    apply ih
    cases c with
    | lock r t m => exact tableNodup_lock T r t m hT
    | unlock r t => exact tableNodup_unlock T r t hT

/-- Every table reached from the empty table has no duplicate transaction in a queue. -/
theorem tableNodup_run (calls : List Call) : TableNodup (run calls) := by
  apply tableNodup_foldl
  intro r q h
  simp [lock_table_init] at h

theorem txnNodup_index (q : List lock_record) (h : TxnNodup q) (i j : Nat)
    (hi : i < q.length) (hj : j < q.length) (hij : q[i].txn_id_ = q[j].txn_id_) :
    i = j := by
  unfold TxnNodup at h
  have hi2 : i < (q.map (fun x => x.txn_id_)).length := by simpa using hi
  have hj2 : j < (q.map (fun x => x.txn_id_)).length := by simpa using hj
  have heq : (q.map (fun x => x.txn_id_))[i] = (q.map (fun x => x.txn_id_))[j] := by
    simpa using hij
  exact (List.Nodup.getElem_inj_iff h).mp heq

/-- C13 (transaction uniqueness per queue). In every table reached from the empty table
by a finite sequence of `lock` and `unlock` calls, no queue has two records of the same
transaction; and a `lock` by a transaction that has a record in the queue of `r` leaves a
queue in which that transaction occurs exactly once. -/
theorem txn_unique_per_queue (calls : List Call) (r : String) (q : List lock_record)
    (hq : run calls r = some q) :
    (∀ i j (hi : i < q.length) (hj : j < q.length),
        q[i].txn_id_ = q[j].txn_id_ → i = j) ∧
    (∀ t m, (∃ x ∈ q, x.txn_id_ = t) →
      ∃ q2, (lock (run calls) r t m).2 r = some q2 ∧
        (q2.map (fun x => x.txn_id_)).count t = 1) := by
  have hnd : TxnNodup q := tableNodup_run calls r q hq
  refine ⟨fun i j hi hj hij => txnNodup_index q hnd i j hi hj hij, ?_⟩
  intro t m hex
  obtain ⟨pre, e, post, hsplit, he, hpre⟩ := exists_first_split t q hex
  subst hsplit
  have hlock := lock_eq_of_present (run calls) r pre post e t m hq he hpre
  refine ⟨_, by rw [hlock]; exact set_same _ _ _, ?_⟩
  have hnd2 := txnNodup_relock pre post e
    ⟨t, m, lock_decision (pre ++ e :: post) m⟩ he.symm hnd
  apply List.count_eq_one_of_mem hnd2
  rw [List.map_append, cascade_map_txn]
  simp

theorem txn_unique_per_queue_witness :
    (∀ i j (hi : i < [(⟨1, SHARED, GRANTED⟩ : lock_record), ⟨2, SHARED, GRANTED⟩].length)
        (hj : j < [(⟨1, SHARED, GRANTED⟩ : lock_record), ⟨2, SHARED, GRANTED⟩].length),
        [(⟨1, SHARED, GRANTED⟩ : lock_record), ⟨2, SHARED, GRANTED⟩][i].txn_id_
          = [(⟨1, SHARED, GRANTED⟩ : lock_record), ⟨2, SHARED, GRANTED⟩][j].txn_id_ →
        i = j) ∧
    (∀ t m, (∃ x ∈ [(⟨1, SHARED, GRANTED⟩ : lock_record), ⟨2, SHARED, GRANTED⟩],
        x.txn_id_ = t) →
      ∃ q2, (lock (run [Call.lock "X" 1 SHARED, Call.lock "X" 2 SHARED]) "X" t m).2 "X"
          = some q2 ∧ (q2.map (fun x => x.txn_id_)).count t = 1) :=
  txn_unique_per_queue [Call.lock "X" 1 SHARED, Call.lock "X" 2 SHARED] "X"
    [⟨1, SHARED, GRANTED⟩, ⟨2, SHARED, GRANTED⟩] (by decide)

/-- C14 (status monotonicity and order preservation of `unlock`). When the queue of `r` is
`pre ++ e :: post` and `e` is the first record of transaction `t`, `unlock r t` returns
true and leaves a queue `pre ++ post2` with one record fewer, where `pre` is unchanged and
`post2` has, place by place, the records of `post` with the same transaction and mode and
with status GRANTED wherever it was GRANTED before. -/
theorem unlock_keeps_order_and_grants (T : LockTable) (r : String) (t : Nat)
    (pre post : List lock_record) (e : lock_record)
    (hq : T r = some (pre ++ e :: post)) (he : e.txn_id_ = t)
    (hpre : ∀ x ∈ pre, x.txn_id_ ≠ t) :
    ∃ post2, (unlock T r t).1 = true ∧ (unlock T r t).2 r = some (pre ++ post2) ∧
      (pre ++ post2).length + 1 = (pre ++ e :: post).length ∧
      List.Forall₂ StatusKept post post2 := by
  have hk := cascade_kept pre post
  refine ⟨cascade pre post, ?_, ?_, ?_, hk⟩
  · rw [unlock_eq T r t pre post e hq he hpre]
  · rw [unlock_eq T r t pre post e hq he hpre]
    exact set_same _ _ _
  · have hlen := hk.length_eq
    simp only [List.length_append, List.length_cons]
    omega

theorem unlock_keeps_order_and_grants_witness :
    ∃ post2,
      (unlock (lock_table_init.set "R" [⟨1, EXCLUSIVE, GRANTED⟩, ⟨2, SHARED, WAITING⟩,
        ⟨4, EXCLUSIVE, WAITING⟩]) "R" 1).1 = true ∧
      (unlock (lock_table_init.set "R" [⟨1, EXCLUSIVE, GRANTED⟩, ⟨2, SHARED, WAITING⟩,
        ⟨4, EXCLUSIVE, WAITING⟩]) "R" 1).2 "R" = some ([] ++ post2) ∧
      ([] ++ post2).length + 1
        = ([] ++ (⟨1, EXCLUSIVE, GRANTED⟩ : lock_record) ::
            [⟨2, SHARED, WAITING⟩, ⟨4, EXCLUSIVE, WAITING⟩]).length ∧
      List.Forall₂ StatusKept [⟨2, SHARED, WAITING⟩, ⟨4, EXCLUSIVE, WAITING⟩] post2 :=
  unlock_keeps_order_and_grants
    (lock_table_init.set "R" [⟨1, EXCLUSIVE, GRANTED⟩, ⟨2, SHARED, WAITING⟩,
      ⟨4, EXCLUSIVE, WAITING⟩]) "R" 1 [] [⟨2, SHARED, WAITING⟩, ⟨4, EXCLUSIVE, WAITING⟩]
    ⟨1, EXCLUSIVE, GRANTED⟩ (by decide) (by decide) (by decide)

/-! ## The admission decision of the code and of the specification -/

theorem lock_scan_eq_all (q : List lock_record) :
    lock_scan q
      = q.all (fun x => decide (x.lock_type_ = SHARED ∧ x.lock_status_ = GRANTED)) := by
  induction q with
  | nil => rfl
  | cons y l ih =>
    by_cases hy : y.lock_type_ = SHARED ∧ y.lock_status_ = GRANTED
    · simp [lock_scan, hy, ih]
    · simp [lock_scan, hy]

theorem lock_decision_eq_spec (q : List lock_record) (m : lockType) :
    lock_decision q m = spec_decision q m := by
  cases m with
  | SHARED => simp [lock_decision, spec_decision, lock_scan_eq_all]
  | EXCLUSIVE => simp [lock_decision, spec_decision]

theorem spec_decision_granted_iff (q : List lock_record) (m : lockType) :
    spec_decision q m = GRANTED
      ↔ (m = SHARED ∧ ∀ x ∈ q, x.lock_type_ = SHARED ∧ x.lock_status_ = GRANTED) := by
  rw [← lock_scan_iff, ← lock_decision_eq_spec]
  cases m with
  | SHARED =>
    by_cases hs : lock_scan q = true
    · simp [lock_decision, hs]
    · simp [lock_decision, hs]
  | EXCLUSIVE => simp [lock_decision]

theorem unlock_other (T : LockTable) (r r2 : String) (t : Nat) (h : r2 ≠ r) :
    (unlock T r t).2 r2 = T r2 := by
  cases hq : T r with
  | none => simp [unlock, hq]
  | some q =>
    by_cases hex : ∃ x ∈ q, x.txn_id_ = t
    · obtain ⟨pre, e, post, hsplit, he, hpre⟩ := exists_first_split t q hex
      subst hsplit
      rw [unlock_eq T r t pre post e hq he hpre]
      exact set_other T r r2 _ h
    · have habs : ∀ x ∈ q, x.txn_id_ ≠ t := fun x hx hxt => hex ⟨x, hx, hxt⟩
      rw [unlock_eq_of_absent T r t q hq habs]

theorem lock_other (T : LockTable) (r r2 : String) (t : Nat) (m : lockType) (h : r2 ≠ r) :
    (lock T r t m).2 r2 = T r2 := by
  have hfirst : (lock_first T r t m).2 r2 = T r2 := set_other T r r2 _ h
  cases hq : T r with
  | none => simpa [lock, hq] using hfirst
  | some q =>
    by_cases hlen : q.length = 0
    · simpa [lock, hq, hlen] using hfirst
    · have hne : q ≠ [] := fun h => hlen (by simp [h])
      by_cases hex : ∃ x ∈ q, x.txn_id_ = t
      · obtain ⟨pre, e, post, hsplit, he, hpre⟩ := exists_first_split t q hex
        subst hsplit
        rw [lock_eq_of_present T r pre post e t m hq he hpre]
        exact set_other T r r2 _ h
      · have habs : ∀ x ∈ q, x.txn_id_ ≠ t := fun x hx hxt => hex ⟨x, hx, hxt⟩
        rw [lock_eq_of_absent T r q t m hq hne habs]
        exact set_other T r r2 _ h

/-- C15 (re-lock is append-then-unlock against the stale queue). When the queue `q` of `r`
has a record of transaction `t`, `lock r t m` is `spec_relock`: it returns true and leaves
the table produced by `unlock r t` on `q` with `(t, m, d)` appended, where `d` is decided
against `q` (GRANTED iff `m` is SHARED and every record of `q` is SHARED and GRANTED).
The record removed is the first record `e` of `t` in `q = pre ++ e :: post`: the result is
`pre ++ post2`, with `post2` holding place by place the records of `post` and then the
new record, and it has the length of `q`. -/
theorem relock_is_append_then_unlock (T : LockTable) (r : String) (q : List lock_record)
    (t : Nat) (m : lockType) (hq : T r = some q) (hex : ∃ x ∈ q, x.txn_id_ = t) :
    lock T r t m = spec_relock T r q t m ∧
    (spec_decision q m = GRANTED
      ↔ (m = SHARED ∧ ∀ x ∈ q, x.lock_type_ = SHARED ∧ x.lock_status_ = GRANTED)) ∧
    ∃ pre e post post2, q = pre ++ e :: post ∧ e.txn_id_ = t ∧
      (∀ x ∈ pre, x.txn_id_ ≠ t) ∧ (lock T r t m).2 r = some (pre ++ post2) ∧
      List.Forall₂ StatusKept (post ++ [⟨t, m, spec_decision q m⟩]) post2 ∧
      (pre ++ post2).length = q.length := by
  have hlen : ¬ q.length = 0 := by
    obtain ⟨x, hx, _⟩ := hex
    intro h
    rw [List.length_eq_zero.mp h] at hx
    simp at hx
  have hpr : lock_txn_prereq t q = true := (lock_txn_prereq_iff t q).mpr hex
  refine ⟨?_, spec_decision_granted_iff q m, ?_⟩
  · simp only [lock, hq, hlen, if_false, hpr, if_true, spec_relock, lock_decision_eq_spec]
  · obtain ⟨pre, e, post, hsplit, he, hpre⟩ := exists_first_split t q hex
    subst hsplit
    have hlock := lock_eq_of_present T r pre post e t m hq he hpre
    rw [lock_decision_eq_spec] at hlock
    have hk := cascade_kept pre
      (post ++ [⟨t, m, spec_decision (pre ++ e :: post) m⟩])
    refine ⟨pre, e, post, _, rfl, he, hpre, by rw [hlock]; exact set_same _ _ _, hk, ?_⟩
    have hl := hk.length_eq
    simp only [List.length_append, List.length_cons, List.length_nil] at hl ⊢
    omega

theorem relock_is_append_then_unlock_witness :
    lock (run [Call.lock "X" 1 SHARED, Call.lock "X" 2 SHARED]) "X" 1 EXCLUSIVE
      = spec_relock (run [Call.lock "X" 1 SHARED, Call.lock "X" 2 SHARED]) "X"
          [⟨1, SHARED, GRANTED⟩, ⟨2, SHARED, GRANTED⟩] 1 EXCLUSIVE ∧
    (spec_decision [⟨1, SHARED, GRANTED⟩, ⟨2, SHARED, GRANTED⟩] EXCLUSIVE = GRANTED
      ↔ (EXCLUSIVE = SHARED ∧
          ∀ x ∈ [(⟨1, SHARED, GRANTED⟩ : lock_record), ⟨2, SHARED, GRANTED⟩],
            x.lock_type_ = SHARED ∧ x.lock_status_ = GRANTED)) ∧
    ∃ pre e post post2,
      [(⟨1, SHARED, GRANTED⟩ : lock_record), ⟨2, SHARED, GRANTED⟩] = pre ++ e :: post ∧
      e.txn_id_ = 1 ∧ (∀ x ∈ pre, x.txn_id_ ≠ 1) ∧
      (lock (run [Call.lock "X" 1 SHARED, Call.lock "X" 2 SHARED]) "X" 1 EXCLUSIVE).2 "X"
        = some (pre ++ post2) ∧
      List.Forall₂ StatusKept
        (post ++ [⟨1, EXCLUSIVE,
          spec_decision [⟨1, SHARED, GRANTED⟩, ⟨2, SHARED, GRANTED⟩] EXCLUSIVE⟩]) post2 ∧
      (pre ++ post2).length
        = [(⟨1, SHARED, GRANTED⟩ : lock_record), ⟨2, SHARED, GRANTED⟩].length :=
  relock_is_append_then_unlock (run [Call.lock "X" 1 SHARED, Call.lock "X" 2 SHARED]) "X"
    [⟨1, SHARED, GRANTED⟩, ⟨2, SHARED, GRANTED⟩] 1 EXCLUSIVE (by decide) (by decide)

/-- C16, as stated, fails. In the table reached by `lock("X", 1, SHARED)` and
`lock("X", 2, EXCLUSIVE)` the queue of "X" is `(1, SHARED, GRANTED)`,
`(2, EXCLUSIVE, WAITING)`. In `unlock("X", 1)` the search stops at position 0 with
`all_shared` true, so the matched record is the first record of the queue, not the
second; its successor is EXCLUSIVE, and the call leaves it GRANTED. -/
theorem exclusive_successor_granted_behind_first_record :
    run [Call.lock "X" 1 SHARED, Call.lock "X" 2 EXCLUSIVE] "X"
      = some [⟨1, SHARED, GRANTED⟩, ⟨2, EXCLUSIVE, WAITING⟩] ∧
    unlock_search 1 [⟨1, SHARED, GRANTED⟩, ⟨2, EXCLUSIVE, WAITING⟩] 0 true
      = some (0, true) ∧
    (unlock (run [Call.lock "X" 1 SHARED, Call.lock "X" 2 EXCLUSIVE]) "X" 1).2 "X"
      = some [⟨2, EXCLUSIVE, GRANTED⟩] := by
  refine ⟨by decide, by decide, by decide⟩

/-- C16 amended. When the queue of `r` is `pre ++ e :: s :: post`, where `e` is the first
record of transaction `t`, every record of `pre` is SHARED and the successor `s` is
EXCLUSIVE and WAITING, `unlock r t` leaves `pre ++ s2 :: post`, and the successor `s2` is
GRANTED only if the matched record `e` was the first record of the queue (position 0). -/
theorem exclusive_successor_granted_only_behind_first (T : LockTable) (r : String)
    (t : Nat) (pre post : List lock_record) (e s : lock_record)
    (hq : T r = some (pre ++ e :: s :: post)) (he : e.txn_id_ = t)
    (hpre : ∀ x ∈ pre, x.txn_id_ ≠ t ∧ x.lock_type_ = SHARED)
    (hs : s.lock_type_ = EXCLUSIVE) (hw : s.lock_status_ = WAITING) :
    ∃ s2, (unlock T r t).2 r = some (pre ++ s2 :: post) ∧
      s2.txn_id_ = s.txn_id_ ∧ (s2.lock_status_ = GRANTED → pre.length = 0) := by
  rw [unlock_eq T r t pre (s :: post) e hq he (fun x hx => (hpre x hx).1)]
  by_cases hp : pre = []
  · subst hp
    refine ⟨s.setLockStatus GRANTED, ?_, rfl, fun _ => rfl⟩
    show (T.set r ([] ++ cascade [] (s :: post))) r = _
    rw [set_same]
    simp [cascade, hs]
  · refine ⟨s, ?_, rfl, ?_⟩
    · show (T.set r (pre ++ cascade pre (s :: post))) r = _
      rw [set_same]
      by_cases hall : pre.all isShared = true
      · simp [cascade, hall, hs, hp]
      · simp [cascade, hall]
    · intro hg
      rw [hw] at hg
      cases hg

theorem exclusive_successor_granted_only_behind_first_witness :
    ∃ s2,
      (unlock (run [Call.lock "X" 1 SHARED, Call.lock "X" 2 SHARED,
          Call.lock "X" 3 EXCLUSIVE]) "X" 2).2 "X"
        = some ([⟨1, SHARED, GRANTED⟩] ++ s2 :: []) ∧
      s2.txn_id_ = (⟨3, EXCLUSIVE, WAITING⟩ : lock_record).txn_id_ ∧
      (s2.lock_status_ = GRANTED → [(⟨1, SHARED, GRANTED⟩ : lock_record)].length = 0) :=
  exclusive_successor_granted_only_behind_first
    (run [Call.lock "X" 1 SHARED, Call.lock "X" 2 SHARED, Call.lock "X" 3 EXCLUSIVE]) "X" 2
    [⟨1, SHARED, GRANTED⟩] [] ⟨2, SHARED, GRANTED⟩ ⟨3, EXCLUSIVE, WAITING⟩
    (by decide) (by decide) (by decide) (by decide) (by decide)

/-- C17 (no cascade past an exclusive predecessor). When the queue of `r` is
`pre ++ e :: post`, where `e` is the first record of transaction `t`, and some record of
`pre` is EXCLUSIVE or `e` is the last record of the queue, `unlock r t` returns true and
leaves exactly `pre ++ post`: the queue without `e`, with no status changed. -/
theorem unlock_without_cascade (T : LockTable) (r : String) (t : Nat)
    (pre post : List lock_record) (e : lock_record)
    (hq : T r = some (pre ++ e :: post)) (he : e.txn_id_ = t)
    (hpre : ∀ x ∈ pre, x.txn_id_ ≠ t)
    (h : (∃ x ∈ pre, x.lock_type_ = EXCLUSIVE) ∨ post = []) :
    (unlock T r t).1 = true ∧ (unlock T r t).2 r = some (pre ++ post) := by
  rw [unlock_eq T r t pre post e hq he hpre]
  refine ⟨rfl, ?_⟩
  show (T.set r (pre ++ cascade pre post)) r = _
  rw [set_same]
  rcases h with h | h
  · rw [cascade_of_exclusive_before pre post h]
  · subst h
    simp [cascade]

theorem unlock_without_cascade_witness :
    (unlock (run [Call.lock "X" 1 EXCLUSIVE, Call.lock "X" 2 EXCLUSIVE,
        Call.lock "X" 3 SHARED]) "X" 2).1 = true ∧
      (unlock (run [Call.lock "X" 1 EXCLUSIVE, Call.lock "X" 2 EXCLUSIVE,
        Call.lock "X" 3 SHARED]) "X" 2).2 "X"
        = some ([⟨1, EXCLUSIVE, GRANTED⟩] ++ [⟨3, SHARED, WAITING⟩]) :=
  unlock_without_cascade
    (run [Call.lock "X" 1 EXCLUSIVE, Call.lock "X" 2 EXCLUSIVE, Call.lock "X" 3 SHARED])
    "X" 2 [⟨1, EXCLUSIVE, GRANTED⟩] [⟨3, SHARED, WAITING⟩] ⟨2, EXCLUSIVE, WAITING⟩
    (by decide) (by decide) (by decide) (Or.inl (by decide))

/-- C18 (per-resource isolation). For every table, resources `r` and `r2` with `r2`
different from `r`, transaction `t` and mode `m`, the entry of `r2` in the table (its
queue, or the absence of a queue) is the same after `lock r t m` and after `unlock r t`
as before the call. -/
theorem other_resource_untouched (T : LockTable) (r r2 : String) (t : Nat) (m : lockType)
    (h : r2 ≠ r) : (lock T r t m).2 r2 = T r2 ∧ (unlock T r t).2 r2 = T r2 :=
  ⟨lock_other T r r2 t m h, unlock_other T r r2 t h⟩

theorem other_resource_untouched_witness :
    (lock (run [Call.lock "X" 1 SHARED, Call.lock "Y" 5 EXCLUSIVE]) "X" 1 EXCLUSIVE).2 "Y"
        = run [Call.lock "X" 1 SHARED, Call.lock "Y" 5 EXCLUSIVE] "Y" ∧
      (unlock (run [Call.lock "X" 1 SHARED, Call.lock "Y" 5 EXCLUSIVE]) "X" 1).2 "Y"
        = run [Call.lock "X" 1 SHARED, Call.lock "Y" 5 EXCLUSIVE] "Y" :=
  other_resource_untouched (run [Call.lock "X" 1 SHARED, Call.lock "Y" 5 EXCLUSIVE])
    "X" "Y" 1 EXCLUSIVE (by decide)

/-- C19 (no orphaned resource). In every table reached from the empty table by a finite
sequence of `lock` and `unlock` calls, the first record of every non-empty queue is
GRANTED. -/
theorem head_is_granted (calls : List Call) (r : String) (q : List lock_record)
    (hq : run calls r = some q) (h0 : 0 < q.length) : q[0].lock_status_ = GRANTED := by
  have hinv : QueueInv q := tableInv_run calls r q hq
  cases q with
  | nil => simp at h0
  | cons y l =>
    simp only [QueueInv] at hinv
    simpa using hinv.1

theorem head_is_granted_witness :
    run [Call.lock "Y" 5 EXCLUSIVE, Call.lock "Y" 6 SHARED, Call.unlock "Y" 5] "Y"
        = some [⟨6, SHARED, GRANTED⟩] ∧
      (⟨6, SHARED, GRANTED⟩ : lock_record).lock_status_ = GRANTED :=
  ⟨by decide,
    head_is_granted [Call.lock "Y" 5 EXCLUSIVE, Call.lock "Y" 6 SHARED, Call.unlock "Y" 5]
      "Y" [⟨6, SHARED, GRANTED⟩] (by decide) (by decide)⟩

/-- C20 (no needless waiting for shared requests). In every table reached from the empty
table by a finite sequence of `lock` and `unlock` calls, every record that is SHARED and
WAITING has an EXCLUSIVE record before it in its queue; hence, when the granted records
of a queue are all SHARED, the first WAITING record of the queue is EXCLUSIVE. -/
theorem shared_waiting_behind_exclusive (calls : List Call) (r : String)
    (q : List lock_record) (hq : run calls r = some q) :
    (∀ j (hj : j < q.length),
        q[j].lock_type_ = SHARED ∧ q[j].lock_status_ = WAITING →
        ∃ i, ∃ hi : i < q.length, i < j ∧ q[i].lock_type_ = EXCLUSIVE) ∧
    ((∀ x ∈ q, x.lock_status_ = GRANTED → x.lock_type_ = SHARED) →
      ∀ j (hj : j < q.length), q[j].lock_status_ = WAITING →
        (∀ i (hi : i < q.length), i < j → q[i].lock_status_ = GRANTED) →
        q[j].lock_type_ = EXCLUSIVE) := by
  have hinv : QueueInv q := tableInv_run calls r q hq
  have hfirst : ∀ j (hj : j < q.length),
      q[j].lock_type_ = SHARED ∧ q[j].lock_status_ = WAITING →
      ∃ i, ∃ hi : i < q.length, i < j ∧ q[i].lock_type_ = EXCLUSIVE :=
    fun j hj hsw => queueInv_shared_waiting q hinv j hj hsw
  refine ⟨hfirst, ?_⟩
  intro hgs j hj hw hbefore
  cases hm : q[j].lock_type_ with
  | EXCLUSIVE => rfl
  | SHARED =>
    exfalso
    obtain ⟨i, hi, hij, hx⟩ := hfirst j hj ⟨hm, hw⟩
    have hs := hgs q[i] (List.getElem_mem hi) (hbefore i hi hij)
    rw [hs] at hx
    cases hx

theorem shared_waiting_behind_exclusive_witness :
    (∀ j (hj : j < [(⟨5, EXCLUSIVE, GRANTED⟩ : lock_record), ⟨6, SHARED, WAITING⟩].length),
        [(⟨5, EXCLUSIVE, GRANTED⟩ : lock_record), ⟨6, SHARED, WAITING⟩][j].lock_type_
            = SHARED ∧
          [(⟨5, EXCLUSIVE, GRANTED⟩ : lock_record), ⟨6, SHARED, WAITING⟩][j].lock_status_
            = WAITING →
        ∃ i, ∃ hi : i < [(⟨5, EXCLUSIVE, GRANTED⟩ : lock_record),
            ⟨6, SHARED, WAITING⟩].length,
          i < j ∧
          [(⟨5, EXCLUSIVE, GRANTED⟩ : lock_record), ⟨6, SHARED, WAITING⟩][i].lock_type_
            = EXCLUSIVE) ∧
    ((∀ x ∈ [(⟨5, EXCLUSIVE, GRANTED⟩ : lock_record), ⟨6, SHARED, WAITING⟩],
        x.lock_status_ = GRANTED → x.lock_type_ = SHARED) →
      ∀ j (hj : j < [(⟨5, EXCLUSIVE, GRANTED⟩ : lock_record), ⟨6, SHARED, WAITING⟩].length),
        [(⟨5, EXCLUSIVE, GRANTED⟩ : lock_record), ⟨6, SHARED, WAITING⟩][j].lock_status_
            = WAITING →
        (∀ i (hi : i < [(⟨5, EXCLUSIVE, GRANTED⟩ : lock_record),
            ⟨6, SHARED, WAITING⟩].length),
          i < j →
          [(⟨5, EXCLUSIVE, GRANTED⟩ : lock_record), ⟨6, SHARED, WAITING⟩][i].lock_status_
            = GRANTED) →
        [(⟨5, EXCLUSIVE, GRANTED⟩ : lock_record), ⟨6, SHARED, WAITING⟩][j].lock_type_
          = EXCLUSIVE) :=
  shared_waiting_behind_exclusive [Call.lock "Y" 5 EXCLUSIVE, Call.lock "Y" 6 SHARED] "Y"
    [⟨5, EXCLUSIVE, GRANTED⟩, ⟨6, SHARED, WAITING⟩] (by decide)

end LockManager
